import Mathlib

/-!
# Verification of the similarity clusterer in `voice_verification_v2.py`

This file gives a shallow embedding of `compare_embeddings`
(`src/voice_verification_v2.py`, lines 50–96) and proves the behavioural
claims of the specification against it.

Modelling notes.

* An embedding file is modelled as a pair of its base name (the identifier)
  and its vector, read as a list of rationals; `np.load`/`os.listdir`
  discovery order becomes the order of the input list.
* `sklearn.metrics.pairwise.cosine_similarity` validates that the two rows
  have the same number of columns and raises `ValueError` otherwise; this is
  the `Err.ShapeMismatch` outcome.  For rows that pass the check it l2
  normalises each row, *leaving zero rows unchanged* (`normalize` replaces a
  zero norm by 1), so a pair involving a zero-norm vector silently gets
  similarity `0`; no error is raised for degenerate vectors.
* Floating point is idealised as exact rational arithmetic.  The comparison
  `similarity_score >= threshold` is decided exactly by `simGE` using sign
  analysis and squaring, avoiding square roots; `simGE_correct` relates it
  to the real-valued cosine similarity.
* The Python dict `clusters` (insertion ordered, with deletion) is an
  association list; a Python set of member names is a duplicate-free list in
  insertion order.
-/

/- Batteries marks the rational field operations irreducible, which blocks
`decide` on concrete runs; the kernel unfolds them regardless, so restore the
default reducibility for this development. -/
attribute [local semireducible] Rat.add Rat.mul Rat.inv Rat.sub Rat.ofScientific

namespace VoiceVerification

/-! ## Vectors and the similarity test -/

/-- Dot product of two vectors (entries beyond the shorter one are ignored;
the shape check rules the ragged case out before this is ever used). -/
def dot (v w : List ℚ) : ℚ := (List.zipWith (· * ·) v w).sum

/-- Squared euclidean norm. -/
def sqNorm (v : List ℚ) : ℚ := dot v v

/-- Decides `cosine_similarity(v, w) >= t` exactly.

sklearn l2-normalises each row, keeping zero rows as zero, so a pair with a
zero-norm member compares `0 >= t`.  Otherwise the comparison
`d / (‖v‖·‖w‖) ≥ t` is decided by sign analysis and squaring
(`d ≥ t·√(N)` with `N = sqNorm v * sqNorm w > 0`). -/
def simGE (v w : List ℚ) (t : ℚ) : Bool :=
  if sqNorm v = 0 ∨ sqNorm w = 0 then decide (t ≤ 0)
  else if t ≤ 0 then
    decide (0 ≤ dot v w) || decide (dot v w ^ 2 ≤ t ^ 2 * (sqNorm v * sqNorm w))
  else
    decide (0 ≤ dot v w) && decide (t ^ 2 * (sqNorm v * sqNorm w) ≤ dot v w ^ 2)

/-! ## The cluster registry -/

/-- The error kinds named by the spec's failure model.  The code can only
produce the shape error (sklearn's dimension check); it never produces
`DegenerateVector`. -/
inductive Err where
  | ShapeMismatch
  | DegenerateVector
deriving DecidableEq

instance {ε α : Type} [DecidableEq ε] [DecidableEq α] : DecidableEq (Except ε α)
  | .error e, .error e' =>
    if h : e = e' then .isTrue (by rw [h]) else .isFalse (by intro hc; cases hc; exact h rfl)
  | .error _, .ok _ => .isFalse (by intro hc; cases hc)
  | .ok _, .error _ => .isFalse (by intro hc; cases hc)
  | .ok a, .ok a' =>
    if h : a = a' then .isTrue (by rw [h]) else .isFalse (by intro hc; cases hc; exact h rfl)

/-- The `clusters` dict: insertion-ordered association list from cluster id
to the member identifiers (a Python set, modelled in insertion order). -/
abbrev Registry := List (ℕ × List String)

/-- `next((k for k, v in clusters.items() if f in v), None)` (lines 76–77). -/
def findCluster (cs : Registry) (f : String) : Option ℕ :=
  (cs.find? (fun kv => decide (f ∈ kv.2))).map Prod.fst

/-- Python set `add`. -/
def addMem (s : List String) (x : String) : List String :=
  if x ∈ s then s else s ++ [x]

/-- Python set `update`. -/
def unionMem (s t : List String) : List String := t.foldl addMem s

/-- `clusters[k] = f(clusters[k])` (mutation of one dict value in place). -/
def setMembers (cs : Registry) (k : ℕ) (f : List String → List String) : Registry :=
  cs.map (fun kv => if kv.1 = k then (kv.1, f kv.2) else kv)

/-- `del clusters[k]` (line 92). -/
def eraseKey (cs : Registry) (k : ℕ) : Registry :=
  cs.filter (fun kv => decide (kv.1 ≠ k))

/-- The member set currently registered under id `k` (empty if absent). -/
def membersOf (cs : Registry) (k : ℕ) : List String :=
  ((cs.find? (fun kv => decide (kv.1 = k))).map Prod.snd).getD []

/-- The body of `if similarity_score >= threshold:` (lines 74–92): the
union-find style merge of the identifiers `fi` and `fj`. -/
def mergeStep (st : Registry × ℕ) (fi fj : String) : Registry × ℕ :=
  match findCluster st.1 fi, findCluster st.1 fj with
  | none, none => (st.1 ++ [(st.2, addMem [fi] fj)], st.2 + 1)
  | some ci, none => (setMembers st.1 ci (fun s => addMem s fj), st.2)
  | none, some cj => (setMembers st.1 cj (fun s => addMem s fi), st.2)
  | some ci, some cj =>
    if ci = cj then st
    else (eraseKey (setMembers st.1 ci (fun s => unionMem s (membersOf st.1 cj))) cj, st.2)

/-- `for i in range(len(...)): for j in range(i+1, len(...))` (lines 69–70). -/
def pairList (n : ℕ) : List (ℕ × ℕ) :=
  (List.range n).flatMap (fun i => (List.range' (i + 1) (n - (i + 1))).map (fun j => (i, j)))

/-- Identifier of item `i` (the base name of the i-th embedding file). -/
def nameAt (items : List (String × List ℚ)) (i : ℕ) : String :=
  (items.getD i ("", [])).1

/-- Vector of item `i`. -/
def vecAt (items : List (String × List ℚ)) (i : ℕ) : List ℚ :=
  (items.getD i ("", [])).2

/-- Process a list of index pairs in order.  For each pair,
`cosine_similarity` first checks the two shapes (raising on mismatch) and
then the merge runs when the score clears the threshold. -/
def runPairs (items : List (String × List ℚ)) (t : ℚ) :
    List (ℕ × ℕ) → Registry × ℕ → Except Err (Registry × ℕ)
  | [], st => .ok st
  | (i, j) :: rest, st =>
    if (vecAt items i).length ≠ (vecAt items j).length then .error .ShapeMismatch
    else if simGE (vecAt items i) (vecAt items j) t then
      runPairs items t rest (mergeStep st (nameAt items i) (nameAt items j))
    else runPairs items t rest st

/-- `compare_embeddings` (lines 50–96): the whole pairwise scan, returning
the final cluster registry (the code prints it; the printed lines are in
registry order). -/
def compare_embeddings (items : List (String × List ℚ)) (t : ℚ) : Except Err Registry :=
  (runPairs items t (pairList items.length) ([], 0)).map Prod.fst

/-! ## The undirected graph generated by a list of edges

`mergeStep` is union-find on identifiers; the invariant proof relates the
registry to connectivity in the graph of the edges processed so far. -/

/-- `x` and `y` are joined by one recorded edge (in either orientation). -/
def adjE (es : List (String × String)) (x y : String) : Prop :=
  (x, y) ∈ es ∨ (y, x) ∈ es

/-- `x` and `y` are connected by a path of recorded edges. -/
def connE (es : List (String × String)) : String → String → Prop :=
  Relation.ReflTransGen (adjE es)

/-! ## The registry invariant -/

/-- `x` is a member of some cluster in the registry. -/
def inReg (cs : Registry) (x : String) : Prop := ∃ kv ∈ cs, x ∈ kv.2

/-- `x` and `y` are members of one common cluster. -/
def sameC (cs : Registry) (x y : String) : Prop := ∃ kv ∈ cs, x ∈ kv.2 ∧ y ∈ kv.2

/-- The invariant tying the registry after processing the edges `es` to the
graph of those edges: cluster ids are distinct and below the id counter,
member lists are duplicate-free, clusters are pairwise disjoint and have at
least two members, exactly the non-isolated identifiers are registered, and
two distinct identifiers share a cluster exactly when the processed edges
connect them. -/
structure WF (cs : Registry) (next : ℕ) (es : List (String × String)) : Prop where
  keysNodup : (cs.map Prod.fst).Nodup
  keysLt : ∀ kv ∈ cs, kv.1 < next
  memNodup : ∀ kv ∈ cs, kv.2.Nodup
  disj : ∀ kv1 ∈ cs, ∀ kv2 ∈ cs, kv1 ≠ kv2 → ∀ x, x ∈ kv1.2 → x ∉ kv2.2
  big : ∀ kv ∈ cs, 2 ≤ kv.2.length
  covered : ∀ x, inReg cs x ↔ ∃ y, adjE es x y
  sameIff : ∀ x y, x ≠ y → (sameC cs x y ↔ connE es x y)

/-- Replay `mergeStep` over a list of recorded edges. -/
def foldEdges (st : Registry × ℕ) : List (String × String) → Registry × ℕ
  | [] => st
  | e :: es => foldEdges (mergeStep st e.1 e.2) es

/-! ## Relating the pairwise scan to the edge replay -/

/-- The edges recorded while processing the index pairs `ps`: the pairs
whose similarity clears the threshold, as identifier pairs. -/
def trueEdges (items : List (String × List ℚ)) (t : ℚ) (ps : List (ℕ × ℕ)) :
    List (String × String) :=
  (ps.filter (fun ij => simGE (vecAt items ij.1) (vecAt items ij.2) t)).map
    (fun ij => (nameAt items ij.1, nameAt items ij.2))

/-- The spec's similarity graph: two distinct identifiers of the input are
adjacent when their vectors' cosine similarity clears the threshold. -/
def simEdge (items : List (String × List ℚ)) (t : ℚ) (a b : String) : Prop :=
  a ≠ b ∧ ∃ va vb, (a, va) ∈ items ∧ (b, vb) ∈ items ∧ simGE va vb t = true

/-- Connectivity in the spec's similarity graph. -/
def simConn (items : List (String × List ℚ)) (t : ℚ) : String → String → Prop :=
  Relation.ReflTransGen (simEdge items t)

/-- `x` has matched at least one other identifier during the processed
pairs `ps`: some processed pair cleared the threshold with `x` as one of
its two identifiers. -/
def matchedIn (items : List (String × List ℚ)) (t : ℚ) (ps : List (ℕ × ℕ))
    (x : String) : Prop :=
  ∃ ij ∈ ps, simGE (vecAt items ij.1) (vecAt items ij.2) t = true ∧
    (x = nameAt items ij.1 ∨ x = nameAt items ij.2)

instance matchedIn.instDecidable (items : List (String × List ℚ)) (t : ℚ)
    (ps : List (ℕ × ℕ)) (x : String) : Decidable (matchedIn items t ps x) := by
  unfold matchedIn
  exact List.decidableBEx _ ps

/-! ## Theorems -/
@[simp] theorem dot_nil_left (w : List ℚ) : dot [] w = 0 := rfl

@[simp] theorem dot_nil_right (v : List ℚ) : dot v [] = 0 := by
  cases v <;> rfl

@[simp] theorem dot_cons (a b : ℚ) (v w : List ℚ) :
    dot (a :: v) (b :: w) = a * b + dot v w := rfl

theorem dot_comm (v w : List ℚ) : dot v w = dot w v := by
  induction v generalizing w with
  | nil => simp
  | cons a v ih =>
    cases w with
    | nil => simp
    | cons b w => simp [ih, mul_comm]

theorem sqNorm_nonneg (v : List ℚ) : 0 ≤ sqNorm v := by
  induction v with
  | nil => simp [sqNorm]
  | cons a v ih =>
    have : dot (a :: v) (a :: v) = a * a + dot v v := rfl
    simp only [sqNorm] at *
    rw [this]
    exact add_nonneg (mul_self_nonneg a) ih

@[simp] theorem sqNorm_nil : sqNorm ([] : List ℚ) = 0 := rfl

theorem sqNorm_cons (a : ℚ) (v : List ℚ) : sqNorm (a :: v) = a * a + sqNorm v := rfl

/-- Cauchy–Schwarz for the list dot product. -/
theorem dot_sq_le (v w : List ℚ) : dot v w ^ 2 ≤ sqNorm v * sqNorm w := by
  induction v generalizing w with
  | nil => simp
  | cons a v ih =>
    cases w with
    | nil => simp
    | cons b w =>
      have hX : (0:ℚ) ≤ sqNorm v := sqNorm_nonneg v
      have hY : (0:ℚ) ≤ sqNorm w := sqNorm_nonneg w
      have hI : dot v w ^ 2 ≤ sqNorm v * sqNorm w := ih w
      rw [dot_cons, sqNorm_cons, sqNorm_cons]
      rcases eq_or_lt_of_le hY with hY0 | hYpos
      · -- the tail of `w` has zero norm, so the tail dot product vanishes
        have hYz : sqNorm w = 0 := hY0.symm
        have h2 : dot v w ^ 2 ≤ 0 := by rw [hYz, mul_zero] at hI; exact hI
        have hS : dot v w = 0 := sq_eq_zero_iff.mp (le_antisymm h2 (sq_nonneg _))
        rw [hS, hYz]
        nlinarith [mul_nonneg hX (mul_self_nonneg b)]
      · nlinarith [sq_nonneg (a * sqNorm w - b * dot v w),
          mul_nonneg (add_nonneg (mul_self_nonneg b) hY) (sub_nonneg.mpr hI), hYpos]

/-! ## Basic lemmas about the similarity test -/

theorem simGE_comm (v w : List ℚ) (t : ℚ) : simGE v w t = simGE w v t := by
  unfold simGE
  by_cases h : sqNorm v = 0 ∨ sqNorm w = 0
  · rw [if_pos h, if_pos (Or.symm h)]
  · rw [if_neg h, if_neg (fun hc => h (Or.symm hc))]
    rw [dot_comm w v, mul_comm (sqNorm w) (sqNorm v)]

theorem sqNormProd_pos {v w : List ℚ} (hz : ¬(sqNorm v = 0 ∨ sqNorm w = 0)) :
    0 < sqNorm v * sqNorm w := by
  rcases not_or.mp hz with ⟨hv, hw⟩
  exact mul_pos ((sqNorm_nonneg v).lt_of_ne (Ne.symm hv))
    ((sqNorm_nonneg w).lt_of_ne (Ne.symm hw))

/-- Raising the threshold can only turn matches into non-matches. -/
theorem simGE_antitone {t1 t2 : ℚ} (h12 : t1 ≤ t2) (v w : List ℚ)
    (h : simGE v w t2 = true) : simGE v w t1 = true := by
  unfold simGE at h ⊢
  by_cases hz : sqNorm v = 0 ∨ sqNorm w = 0
  · rw [if_pos hz] at h ⊢
    exact decide_eq_true (le_trans h12 (of_decide_eq_true h))
  · rw [if_neg hz] at h ⊢
    have hN : 0 < sqNorm v * sqNorm w := sqNormProd_pos hz
    by_cases h2 : t2 ≤ 0
    · have h1 : t1 ≤ 0 := le_trans h12 h2
      rw [if_pos h2] at h
      rw [if_pos h1]
      rcases Bool.or_eq_true_iff.mp h with hd | hdd
      · exact Bool.or_eq_true_iff.mpr (Or.inl hd)
      · refine Bool.or_eq_true_iff.mpr (Or.inr (decide_eq_true ?_))
        have hsq : t2 ^ 2 ≤ t1 ^ 2 := by nlinarith
        exact le_trans (of_decide_eq_true hdd)
          (mul_le_mul_of_nonneg_right hsq hN.le)
    · rw [if_neg h2] at h
      rcases Bool.and_eq_true_iff.mp h with ⟨hd, hdd⟩
      by_cases h1 : t1 ≤ 0
      · rw [if_pos h1]
        exact Bool.or_eq_true_iff.mpr (Or.inl hd)
      · rw [if_neg h1]
        refine Bool.and_eq_true_iff.mpr ⟨hd, decide_eq_true ?_⟩
        have hsq : t1 ^ 2 ≤ t2 ^ 2 := by nlinarith
        exact le_trans (mul_le_mul_of_nonneg_right hsq hN.le) (of_decide_eq_true hdd)

/-- Cosine similarity is at most 1, so a threshold above 1 never matches. -/
theorem simGE_false_of_one_lt {t : ℚ} (ht : 1 < t) (v w : List ℚ) :
    simGE v w t = false := by
  unfold simGE
  have ht0 : ¬ t ≤ 0 := by linarith
  by_cases hz : sqNorm v = 0 ∨ sqNorm w = 0
  · rw [if_pos hz]
    exact decide_eq_false ht0
  · rw [if_neg hz, if_neg ht0]
    have hN : 0 < sqNorm v * sqNorm w := sqNormProd_pos hz
    have hcs := dot_sq_le v w
    have h1 : (1:ℚ) < t ^ 2 := by nlinarith [sq_nonneg (t - 1)]
    have h2 : sqNorm v * sqNorm w < t ^ 2 * (sqNorm v * sqNorm w) := by
      nlinarith [mul_pos (show (0:ℚ) < t ^ 2 - 1 by linarith) hN]
    have hlt : ¬ (t ^ 2 * (sqNorm v * sqNorm w) ≤ dot v w ^ 2) := by
      intro hle
      linarith
    simp [hlt]

/-- Cosine similarity is at least -1, so a threshold at or below -1 always
matches. -/
theorem simGE_true_of_le_neg_one {t : ℚ} (ht : t ≤ -1) (v w : List ℚ) :
    simGE v w t = true := by
  unfold simGE
  have ht0 : t ≤ 0 := by linarith
  by_cases hz : sqNorm v = 0 ∨ sqNorm w = 0
  · rw [if_pos hz]
    exact decide_eq_true ht0
  · rw [if_neg hz, if_pos ht0]
    by_cases hd : 0 ≤ dot v w
    · simp [hd]
    · have hN : 0 < sqNorm v * sqNorm w := sqNormProd_pos hz
      have hcs := dot_sq_le v w
      have h1 : (1:ℚ) ≤ t ^ 2 := by nlinarith [sq_nonneg (t + 1)]
      have h2 : sqNorm v * sqNorm w ≤ t ^ 2 * (sqNorm v * sqNorm w) := by
        nlinarith [mul_nonneg (show (0:ℚ) ≤ t ^ 2 - 1 by linarith) hN.le]
      have hle : dot v w ^ 2 ≤ t ^ 2 * (sqNorm v * sqNorm w) := by linarith
      simp [hle]

/-! ## Basic lemmas about registry operations -/

theorem addMem_mem (s : List String) (x y : String) :
    y ∈ addMem s x ↔ y ∈ s ∨ y = x := by
  unfold addMem
  by_cases h : x ∈ s
  · rw [if_pos h]
    constructor
    · exact Or.inl
    · rintro (hy | rfl)
      · exact hy
      · exact h
  · rw [if_neg h]
    simp

theorem addMem_nodup {s : List String} (x : String) (h : s.Nodup) :
    (addMem s x).Nodup := by
  unfold addMem
  by_cases hx : x ∈ s
  · rwa [if_pos hx]
  · rw [if_neg hx]
    rw [List.nodup_append]
    exact ⟨h, List.nodup_singleton x, by simpa using fun hc => hx hc⟩

theorem addMem_length (s : List String) (x : String) :
    s.length ≤ (addMem s x).length := by
  unfold addMem
  by_cases hx : x ∈ s
  · rw [if_pos hx]
  · rw [if_neg hx]
    simp

theorem unionMem_cons (s : List String) (b : String) (t : List String) :
    unionMem s (b :: t) = unionMem (addMem s b) t := rfl

theorem unionMem_mem (s t : List String) (x : String) :
    x ∈ unionMem s t ↔ x ∈ s ∨ x ∈ t := by
  induction t generalizing s with
  | nil => simp [unionMem]
  | cons b t ih =>
    rw [unionMem_cons, ih, addMem_mem]
    simp only [List.mem_cons]
    tauto

theorem unionMem_nodup {s : List String} (t : List String) (h : s.Nodup) :
    (unionMem s t).Nodup := by
  induction t generalizing s with
  | nil => exact h
  | cons b t ih => exact ih (addMem_nodup b h)

theorem unionMem_length (s t : List String) :
    s.length ≤ (unionMem s t).length := by
  induction t generalizing s with
  | nil => exact le_refl _
  | cons b t ih => exact le_trans (addMem_length s b) (ih (addMem s b))

theorem mem_pairList {n i j : ℕ} : (i, j) ∈ pairList n ↔ i < j ∧ j < n := by
  unfold pairList
  simp only [List.mem_flatMap, List.mem_map, List.mem_range, List.mem_range',
    Prod.mk.injEq]
  constructor
  · rintro ⟨a, ha, jj, ⟨k, hk, rfl⟩, rfl, rfl⟩
    omega
  · rintro ⟨hij, hjn⟩
    exact ⟨i, by omega, j, ⟨j - (i + 1), by omega, by omega⟩, rfl, rfl⟩

theorem findCluster_eq_none {cs : Registry} {x : String} :
    findCluster cs x = none ↔ ∀ kv ∈ cs, x ∉ kv.2 := by
  unfold findCluster
  simp [List.find?_eq_none]

theorem findCluster_some {cs : Registry} {x : String} {k : ℕ}
    (h : findCluster cs x = some k) : ∃ kv ∈ cs, kv.1 = k ∧ x ∈ kv.2 := by
  unfold findCluster at h
  cases hf : cs.find? (fun kv => decide (x ∈ kv.2)) with
  | none => rw [hf] at h; cases h
  | some kv =>
    rw [hf] at h
    have hmem := List.mem_of_find?_eq_some hf
    have hpx := List.find?_some hf
    refine ⟨kv, hmem, ?_, of_decide_eq_true hpx⟩
    simpa using h

/-- Distinct registry entries have distinct keys, so an entry is determined
by its key. -/
theorem key_inj {cs : Registry} (h : (cs.map Prod.fst).Nodup) :
    ∀ kv1 ∈ cs, ∀ kv2 ∈ cs, kv1.1 = kv2.1 → kv1 = kv2 := by
  have hp : cs.Pairwise (fun a b => a.1 ≠ b.1) := List.pairwise_map.mp h
  intro kv1 h1 kv2 h2 hk
  by_contra hne
  exact (hp.forall (fun a b hab => hab.symm) h1 h2 hne) hk

theorem adjE_symm {es : List (String × String)} {x y : String}
    (h : adjE es x y) : adjE es y x := Or.symm h

theorem connE_refl {es : List (String × String)} (x : String) : connE es x x :=
  Relation.ReflTransGen.refl

theorem connE_symm {es : List (String × String)} {x y : String}
    (h : connE es x y) : connE es y x :=
  Relation.ReflTransGen.symmetric (fun _ _ hab => adjE_symm hab) h

theorem connE_trans {es : List (String × String)} {x y z : String}
    (h1 : connE es x y) (h2 : connE es y z) : connE es x z :=
  Relation.ReflTransGen.trans h1 h2

theorem connE_of_adj {es : List (String × String)} {x y : String}
    (h : adjE es x y) : connE es x y :=
  Relation.ReflTransGen.single h

theorem adjE_mono {es es' : List (String × String)}
    (hsub : ∀ e ∈ es, e ∈ es') {x y : String} (h : adjE es x y) : adjE es' x y := by
  rcases h with h | h
  · exact Or.inl (hsub _ h)
  · exact Or.inr (hsub _ h)

theorem connE_mono {es es' : List (String × String)}
    (hsub : ∀ e ∈ es, e ∈ es') {x y : String} (h : connE es x y) : connE es' x y :=
  Relation.ReflTransGen.mono (fun _ _ hab => adjE_mono hsub hab) h

theorem adjE_append {es : List (String × String)} {a b x y : String} :
    adjE (es ++ [(a, b)]) x y ↔
      adjE es x y ∨ (x = a ∧ y = b) ∨ (x = b ∧ y = a) := by
  unfold adjE
  simp only [List.mem_append, List.mem_singleton, Prod.mk.injEq]
  tauto

/-- A vertex with no incident edge is connected only to itself. -/
theorem connE_isolated {es : List (String × String)} {a : String}
    (ha : ∀ y, ¬ adjE es a y) {x : String} (h : connE es a x) : x = a := by
  rcases Relation.ReflTransGen.cases_head h with heq | ⟨c, hac, _⟩
  · exact heq.symm
  · exact absurd hac (ha c)

/-- Connectivity after recording one more edge. -/
theorem connE_append_edge {es : List (String × String)} {a b x y : String} :
    connE (es ++ [(a, b)]) x y ↔
      connE es x y ∨ (connE es x a ∧ connE es b y) ∨
        (connE es x b ∧ connE es a y) := by
  constructor
  · intro h
    induction h with
    | refl => exact Or.inl (connE_refl x)
    | tail hxc hadj ih =>
      rcases adjE_append.mp hadj with hadj' | ⟨rfl, rfl⟩ | ⟨rfl, rfl⟩
      · rcases ih with h1 | ⟨h1, h2⟩ | ⟨h1, h2⟩
        · exact Or.inl (h1.tail hadj')
        · exact Or.inr (Or.inl ⟨h1, h2.tail hadj'⟩)
        · exact Or.inr (Or.inr ⟨h1, h2.tail hadj'⟩)
      · rcases ih with h1 | ⟨h1, _⟩ | ⟨h1, _⟩
        · exact Or.inr (Or.inl ⟨h1, connE_refl _⟩)
        · exact Or.inr (Or.inl ⟨h1, connE_refl _⟩)
        · exact Or.inl h1
      · rcases ih with h1 | ⟨h1, _⟩ | ⟨h1, _⟩
        · exact Or.inr (Or.inr ⟨h1, connE_refl _⟩)
        · exact Or.inl h1
        · exact Or.inr (Or.inr ⟨h1, connE_refl _⟩)
  · have hsub : ∀ e ∈ es, e ∈ es ++ [(a, b)] := fun e he => List.mem_append_left _ he
    have hedge : adjE (es ++ [(a, b)]) a b :=
      Or.inl (List.mem_append_right _ (List.mem_singleton.mpr rfl))
    rintro (h | ⟨h1, h2⟩ | ⟨h1, h2⟩)
    · exact connE_mono hsub h
    · exact ((connE_mono hsub h1).tail hedge).trans (connE_mono hsub h2)
    · exact ((connE_mono hsub h1).tail (adjE_symm hedge)).trans (connE_mono hsub h2)

/-- Recording an edge between already connected vertices changes nothing. -/
theorem connE_append_redundant {es : List (String × String)} {a b : String}
    (hab : connE es a b) (x y : String) :
    connE (es ++ [(a, b)]) x y ↔ connE es x y := by
  constructor
  · intro h
    rcases connE_append_edge.mp h with h | ⟨h1, h2⟩ | ⟨h1, h2⟩
    · exact h
    · exact (h1.trans hab).trans h2
    · exact (h1.trans (connE_symm hab)).trans h2
  · exact connE_mono (fun e he => List.mem_append_left _ he)

/-! ## Pointwise descriptions of the registry operations -/

theorem setMembers_cons (kv : ℕ × List String) (cs : Registry) (k : ℕ)
    (f : List String → List String) :
    setMembers (kv :: cs) k f =
      (if kv.1 = k then (kv.1, f kv.2) else kv) :: setMembers cs k f := rfl

theorem setMembers_keys (cs : Registry) (k : ℕ) (f : List String → List String) :
    (setMembers cs k f).map Prod.fst = cs.map Prod.fst := by
  induction cs with
  | nil => rfl
  | cons kv cs ih =>
    rw [setMembers_cons, List.map_cons, List.map_cons, ih]
    by_cases h : kv.1 = k
    · rw [if_pos h]
    · rw [if_neg h]

theorem mem_setMembers {cs : Registry} {k : ℕ} {f : List String → List String}
    {kv' : ℕ × List String} :
    kv' ∈ setMembers cs k f ↔
      ∃ kv ∈ cs, kv' = if kv.1 = k then (kv.1, f kv.2) else kv := by
  unfold setMembers
  simp only [List.mem_map]
  constructor
  · rintro ⟨kv, hkv, rfl⟩
    exact ⟨kv, hkv, rfl⟩
  · rintro ⟨kv, hkv, rfl⟩
    exact ⟨kv, hkv, rfl⟩

theorem mem_eraseKey {cs : Registry} {k : ℕ} {kv : ℕ × List String} :
    kv ∈ eraseKey cs k ↔ kv ∈ cs ∧ kv.1 ≠ k := by
  unfold eraseKey
  simp [List.mem_filter]

theorem eraseKey_cons (kv : ℕ × List String) (cs : Registry) (k : ℕ) :
    eraseKey (kv :: cs) k =
      if kv.1 = k then eraseKey cs k else kv :: eraseKey cs k := by
  unfold eraseKey
  rw [List.filter_cons]
  by_cases h : kv.1 = k
  · rw [if_pos h, show decide (kv.1 ≠ k) = false by simp [h]]
    simp
  · rw [if_neg h, show decide (kv.1 ≠ k) = true by simp [h]]
    simp

theorem eraseKey_keys (cs : Registry) (k : ℕ) :
    (eraseKey cs k).map Prod.fst = (cs.map Prod.fst).filter (fun x => decide (x ≠ k)) := by
  induction cs with
  | nil => rfl
  | cons kv cs ih =>
    rw [eraseKey_cons, List.map_cons, List.filter_cons]
    by_cases h : kv.1 = k
    · rw [if_pos h, show decide (kv.1 ≠ k) = false by simp [h]]
      simpa using ih
    · rw [if_neg h, show decide (kv.1 ≠ k) = true by simp [h]]
      simp [List.map_cons, ih]

theorem membersOf_cons (kv : ℕ × List String) (cs : Registry) (k : ℕ) :
    membersOf (kv :: cs) k = if kv.1 = k then kv.2 else membersOf cs k := by
  unfold membersOf
  by_cases h : kv.1 = k
  · rw [List.find?_cons_of_pos _ (by simpa using h), if_pos h]
    rfl
  · rw [List.find?_cons_of_neg _ (by simpa using h), if_neg h]

/-- With duplicate-free keys, `membersOf` reads off the member list of the
entry with that key. -/
theorem membersOf_eq {cs : Registry} (hkeys : (cs.map Prod.fst).Nodup)
    {kv : ℕ × List String} (hmem : kv ∈ cs) : membersOf cs kv.1 = kv.2 := by
  induction cs with
  | nil => cases hmem
  | cons kv0 cs ih =>
    rw [List.map_cons, List.nodup_cons] at hkeys
    rw [membersOf_cons]
    rcases List.mem_cons.mp hmem with rfl | hmem'
    · rw [if_pos rfl]
    · by_cases h : kv0.1 = kv.1
      · exact absurd (h ▸ List.mem_map_of_mem Prod.fst hmem') hkeys.1
      · rw [if_neg h]
        exact ih hkeys.2 hmem'

theorem membersOf_setMembers_same {cs : Registry} {k : ℕ}
    (f : List String → List String) (hex : ∃ kv ∈ cs, kv.1 = k) :
    membersOf (setMembers cs k f) k = f (membersOf cs k) := by
  induction cs with
  | nil => simp at hex
  | cons kv0 cs ih =>
    by_cases h : kv0.1 = k
    · simp [setMembers_cons, membersOf_cons, h]
    · have hex' : ∃ kv ∈ cs, kv.1 = k := by
        rcases hex with ⟨kv, hkv, hkk⟩
        rcases List.mem_cons.mp hkv with rfl | hkv'
        · exact absurd hkk h
        · exact ⟨kv, hkv', hkk⟩
      simp [setMembers_cons, membersOf_cons, h, ih hex']

theorem membersOf_setMembers_ne {cs : Registry} {k k' : ℕ}
    (f : List String → List String) (hk : k' ≠ k) :
    membersOf (setMembers cs k f) k' = membersOf cs k' := by
  induction cs with
  | nil => rfl
  | cons kv0 cs ih =>
    by_cases h : kv0.1 = k
    · simp [setMembers_cons, membersOf_cons, h, Ne.symm hk, ih]
    · simp [setMembers_cons, membersOf_cons, h, ih]

theorem membersOf_eraseKey_ne {cs : Registry} {k k' : ℕ} (hk : k' ≠ k) :
    membersOf (eraseKey cs k) k' = membersOf cs k' := by
  induction cs with
  | nil => rfl
  | cons kv0 cs ih =>
    by_cases h : kv0.1 = k
    · simp [eraseKey_cons, membersOf_cons, h, Ne.symm hk, ih]
    · simp [eraseKey_cons, membersOf_cons, h, ih]

theorem WF.owner_unique {cs : Registry} {next : ℕ} {es : List (String × String)}
    (h : WF cs next es) {kv1 kv2 : ℕ × List String} {x : String}
    (h1 : kv1 ∈ cs) (h2 : kv2 ∈ cs) (hx1 : x ∈ kv1.2) (hx2 : x ∈ kv2.2) :
    kv1 = kv2 := by
  by_contra hne
  exact h.disj kv1 h1 kv2 h2 hne x hx1 hx2

/-- Inside an invariant state, the connectivity class of any member of a
cluster is exactly that cluster. -/
theorem WF.conn_iff_mem {cs : Registry} {next : ℕ} {es : List (String × String)}
    (h : WF cs next es) {kv : ℕ × List String} {a : String}
    (hkv : kv ∈ cs) (ha : a ∈ kv.2) (x : String) :
    connE es a x ↔ x ∈ kv.2 := by
  constructor
  · intro hconn
    by_cases hxa : x = a
    · rwa [hxa]
    · rcases (h.sameIff a x (fun hc => hxa hc.symm)).mpr hconn with ⟨kv', hkv', ha', hx'⟩
      exact (h.owner_unique hkv' hkv ha' ha) ▸ hx'
  · intro hx
    by_cases hxa : x = a
    · rw [hxa]
      exact connE_refl a
    · exact (h.sameIff a x (fun hc => hxa hc.symm)).mp ⟨kv, hkv, ha, hx⟩

theorem WF.findCluster_entry {cs : Registry} {next : ℕ} {es : List (String × String)}
    (h : WF cs next es) {kv : ℕ × List String} {x : String}
    (hkv : kv ∈ cs) (hx : x ∈ kv.2) : findCluster cs x = some kv.1 := by
  cases hf : findCluster cs x with
  | none => exact absurd hx (findCluster_eq_none.mp hf kv hkv)
  | some k =>
    rcases findCluster_some hf with ⟨kv', hkv', hk, hx'⟩
    rw [h.owner_unique hkv' hkv hx' hx] at hk
    rw [← hk]

theorem inReg_append {cs : Registry} {e : ℕ × List String} {x : String} :
    inReg (cs ++ [e]) x ↔ inReg cs x ∨ x ∈ e.2 := by
  constructor
  · rintro ⟨kv, hkv, hx⟩
    rcases List.mem_append.mp hkv with hkv' | hkv'
    · exact Or.inl ⟨kv, hkv', hx⟩
    · rw [List.mem_singleton.mp hkv'] at hx
      exact Or.inr hx
  · rintro (⟨kv, hkv, hx⟩ | hx)
    · exact ⟨kv, List.mem_append_left _ hkv, hx⟩
    · exact ⟨e, List.mem_append_right _ (List.mem_singleton.mpr rfl), hx⟩

theorem sameC_append {cs : Registry} {e : ℕ × List String} {x y : String} :
    sameC (cs ++ [e]) x y ↔ sameC cs x y ∨ (x ∈ e.2 ∧ y ∈ e.2) := by
  constructor
  · rintro ⟨kv, hkv, hx, hy⟩
    rcases List.mem_append.mp hkv with hkv' | hkv'
    · exact Or.inl ⟨kv, hkv', hx, hy⟩
    · rw [List.mem_singleton.mp hkv'] at hx hy
      exact Or.inr ⟨hx, hy⟩
  · rintro (⟨kv, hkv, hx, hy⟩ | ⟨hx, hy⟩)
    · exact ⟨kv, List.mem_append_left _ hkv, hx, hy⟩
    · exact ⟨e, List.mem_append_right _ (List.mem_singleton.mpr rfl), hx, hy⟩

/-- With duplicate-free keys, updating the cluster with key `k` rewrites its
entry and leaves every other entry alone. -/
theorem mem_setMembers_nodup {cs : Registry} (hkeys : (cs.map Prod.fst).Nodup)
    {kvc : ℕ × List String} (hkvc : kvc ∈ cs) {k : ℕ} (hk1 : kvc.1 = k)
    (f : List String → List String) {kv' : ℕ × List String} :
    kv' ∈ setMembers cs k f ↔ kv' = (k, f kvc.2) ∨ (kv' ∈ cs ∧ kv'.1 ≠ k) := by
  rw [mem_setMembers]
  constructor
  · rintro ⟨kv, hkv, rfl⟩
    by_cases h : kv.1 = k
    · rw [if_pos h]
      left
      have hkk : kv = kvc := key_inj hkeys kv hkv kvc hkvc (by rw [h, hk1])
      rw [hkk, hk1]
    · rw [if_neg h]
      exact Or.inr ⟨hkv, h⟩
  · rintro (rfl | ⟨hkv, hne⟩)
    · exact ⟨kvc, hkvc, by rw [if_pos hk1, hk1]⟩
    · exact ⟨kv', hkv, by rw [if_neg hne]⟩

theorem connE_comm {es : List (String × String)} {x y : String} :
    connE es x y ↔ connE es y x := ⟨connE_symm, connE_symm⟩

/-! ## Preservation of the invariant by one merge step -/

/-- Case 1 (lines 79–82): neither identifier is registered; a fresh cluster
`{a, b}` is appended under the next id. -/
theorem WF_step_new {cs : Registry} {next : ℕ} {es : List (String × String)}
    {a b : String} (h : WF cs next es) (hab : a ≠ b)
    (ha : findCluster cs a = none) (hb : findCluster cs b = none) :
    WF (cs ++ [(next, addMem [a] b)]) (next + 1) (es ++ [(a, b)]) := by
  have hmemab : addMem [a] b = [a, b] := by
    unfold addMem
    rw [if_neg (by simp [Ne.symm hab])]
    rfl
  rw [hmemab]
  have hnra : ¬ inReg cs a := by
    rintro ⟨kv, hkv, hx⟩
    exact findCluster_eq_none.mp ha kv hkv hx
  have hnrb : ¬ inReg cs b := by
    rintro ⟨kv, hkv, hx⟩
    exact findCluster_eq_none.mp hb kv hkv hx
  have hisoA : ∀ y, ¬ adjE es a y := fun y hy => hnra ((h.covered a).mpr ⟨y, hy⟩)
  have hisoB : ∀ y, ¬ adjE es b y := fun y hy => hnrb ((h.covered b).mpr ⟨y, hy⟩)
  have hconnA : ∀ x, connE es a x ↔ x = a :=
    fun x => ⟨connE_isolated hisoA, by rintro rfl; exact connE_refl _⟩
  have hconnB : ∀ x, connE es b x ↔ x = b :=
    fun x => ⟨connE_isolated hisoB, by rintro rfl; exact connE_refl _⟩
  constructor
  · rw [List.map_append]
    rw [List.nodup_append]
    refine ⟨h.keysNodup, List.nodup_singleton next, ?_⟩
    intro k hk hk'
    simp only [List.map_cons, List.map_nil, List.mem_singleton] at hk'
    rcases List.mem_map.mp hk with ⟨kv, hkv, rfl⟩
    exact absurd (hk' ▸ h.keysLt kv hkv) (lt_irrefl next)
  · intro kv hkv
    rcases List.mem_append.mp hkv with hkv' | hkv'
    · exact lt_trans (h.keysLt kv hkv') (Nat.lt_succ_self next)
    · rw [List.mem_singleton.mp hkv']
      exact Nat.lt_succ_self next
  · intro kv hkv
    rcases List.mem_append.mp hkv with hkv' | hkv'
    · exact h.memNodup kv hkv'
    · rw [List.mem_singleton.mp hkv']
      simp [hab]
  · intro kv1 hkv1 kv2 hkv2 hne x hx1 hx2
    rcases List.mem_append.mp hkv1 with h1 | h1 <;>
      rcases List.mem_append.mp hkv2 with h2 | h2
    · exact h.disj kv1 h1 kv2 h2 hne x hx1 hx2
    · rw [List.mem_singleton.mp h2] at hx2
      rcases List.mem_cons.mp hx2 with rfl | hx2'
      · exact hnra ⟨kv1, h1, hx1⟩
      · rcases List.mem_singleton.mp hx2' with rfl
        exact hnrb ⟨kv1, h1, hx1⟩
    · rw [List.mem_singleton.mp h1] at hx1
      rcases List.mem_cons.mp hx1 with rfl | hx1'
      · exact hnra ⟨kv2, h2, hx2⟩
      · rcases List.mem_singleton.mp hx1' with rfl
        exact hnrb ⟨kv2, h2, hx2⟩
    · rw [List.mem_singleton.mp h1, List.mem_singleton.mp h2] at hne
      exact hne rfl
  · intro kv hkv
    rcases List.mem_append.mp hkv with hkv' | hkv'
    · exact h.big kv hkv'
    · rw [List.mem_singleton.mp hkv']
      simp
  · intro x
    rw [inReg_append]
    constructor
    · rintro (hx | hx)
      · rcases (h.covered x).mp hx with ⟨y, hy⟩
        exact ⟨y, adjE_append.mpr (Or.inl hy)⟩
      · rcases List.mem_cons.mp hx with rfl | hx'
        · exact ⟨b, adjE_append.mpr (Or.inr (Or.inl ⟨rfl, rfl⟩))⟩
        · rcases List.mem_singleton.mp hx' with rfl
          exact ⟨a, adjE_append.mpr (Or.inr (Or.inr ⟨rfl, rfl⟩))⟩
    · rintro ⟨y, hy⟩
      rcases adjE_append.mp hy with hy' | ⟨rfl, rfl⟩ | ⟨rfl, rfl⟩
      · exact Or.inl ((h.covered x).mpr ⟨y, hy'⟩)
      · exact Or.inr (List.mem_cons_self _ _)
      · exact Or.inr (by simp)
  · intro x y hxy
    rw [sameC_append, connE_append_edge]
    constructor
    · rintro (hs | ⟨hx, hy⟩)
      · exact Or.inl ((h.sameIff x y hxy).mp hs)
      · simp only [List.mem_cons, List.mem_singleton, List.not_mem_nil, or_false] at hx hy
        rcases hx with rfl | rfl <;> rcases hy with rfl | rfl
        · exact absurd rfl hxy
        · exact Or.inr (Or.inl ⟨connE_refl _, connE_refl _⟩)
        · exact Or.inr (Or.inr ⟨connE_refl _, connE_refl _⟩)
        · exact absurd rfl hxy
    · rintro (hc | ⟨h1, h2⟩ | ⟨h1, h2⟩)
      · exact Or.inl ((h.sameIff x y hxy).mpr hc)
      · have hx : x = a := (hconnA x).mp (connE_symm h1)
        have hy : y = b := (hconnB y).mp h2
        subst hx; subst hy
        exact Or.inr (by simp)
      · have hx : x = b := (hconnB x).mp (connE_symm h1)
        have hy : y = a := (hconnA y).mp h2
        subst hx; subst hy
        exact Or.inr (by simp)

/-- Cases 2 and 3 (lines 83–88): exactly one of the two identifiers already
belongs to a cluster; the other one is added to that cluster.  Here `c` is
the registered identifier and `d` the unregistered one; the recorded edge
may carry either orientation. -/
theorem WF_step_add {cs : Registry} {next : ℕ} {es : List (String × String)}
    {c d : String} {k : ℕ} (h : WF cs next es) (hcd : c ≠ d)
    (hc : findCluster cs c = some k) (hd : findCluster cs d = none)
    {e : String × String} (he : e = (c, d) ∨ e = (d, c)) :
    WF (setMembers cs k (fun s => addMem s d)) next (es ++ [e]) := by
  obtain ⟨kvc, hkvc, hk1, hcmem⟩ := findCluster_some hc
  have hnrd : ¬ inReg cs d := by
    rintro ⟨kv, hkv, hx⟩
    exact findCluster_eq_none.mp hd kv hkv hx
  have hisoD : ∀ y, ¬ adjE es d y := fun y hy => hnrd ((h.covered d).mpr ⟨y, hy⟩)
  have hconnD : ∀ x, connE es d x ↔ x = d :=
    fun x => ⟨connE_isolated hisoD, by rintro rfl; exact connE_refl _⟩
  have hconnC : ∀ x, connE es c x ↔ x ∈ kvc.2 := h.conn_iff_mem hkvc hcmem
  have hadj : ∀ x, (∃ y, adjE (es ++ [e]) x y) ↔
      (∃ y, adjE es x y) ∨ x = c ∨ x = d := by
    intro x
    rcases he with rfl | rfl
    · constructor
      · rintro ⟨y, hy⟩
        rcases adjE_append.mp hy with hy' | ⟨rfl, rfl⟩ | ⟨rfl, rfl⟩
        · exact Or.inl ⟨y, hy'⟩
        · exact Or.inr (Or.inl rfl)
        · exact Or.inr (Or.inr rfl)
      · rintro (⟨y, hy⟩ | rfl | rfl)
        · exact ⟨y, adjE_append.mpr (Or.inl hy)⟩
        · exact ⟨d, adjE_append.mpr (Or.inr (Or.inl ⟨rfl, rfl⟩))⟩
        · exact ⟨c, adjE_append.mpr (Or.inr (Or.inr ⟨rfl, rfl⟩))⟩
    · constructor
      · rintro ⟨y, hy⟩
        rcases adjE_append.mp hy with hy' | ⟨rfl, rfl⟩ | ⟨rfl, rfl⟩
        · exact Or.inl ⟨y, hy'⟩
        · exact Or.inr (Or.inr rfl)
        · exact Or.inr (Or.inl rfl)
      · rintro (⟨y, hy⟩ | rfl | rfl)
        · exact ⟨y, adjE_append.mpr (Or.inl hy)⟩
        · exact ⟨d, adjE_append.mpr (Or.inr (Or.inr ⟨rfl, rfl⟩))⟩
        · exact ⟨c, adjE_append.mpr (Or.inr (Or.inl ⟨rfl, rfl⟩))⟩
  have hconn : ∀ x y, connE (es ++ [e]) x y ↔
      (connE es x y ∨ (connE es x c ∧ y = d) ∨ (x = d ∧ connE es c y)) := by
    intro x y
    rcases he with rfl | rfl
    · rw [connE_append_edge]
      constructor
      · rintro (h1 | ⟨h1, h2⟩ | ⟨h1, h2⟩)
        · exact Or.inl h1
        · exact Or.inr (Or.inl ⟨h1, (hconnD y).mp h2⟩)
        · exact Or.inr (Or.inr ⟨(hconnD x).mp (connE_symm h1), h2⟩)
      · rintro (h1 | ⟨h1, rfl⟩ | ⟨rfl, h2⟩)
        · exact Or.inl h1
        · exact Or.inr (Or.inl ⟨h1, connE_refl _⟩)
        · exact Or.inr (Or.inr ⟨connE_refl _, h2⟩)
    · rw [connE_append_edge]
      constructor
      · rintro (h1 | ⟨h1, h2⟩ | ⟨h1, h2⟩)
        · exact Or.inl h1
        · exact Or.inr (Or.inr ⟨(hconnD x).mp (connE_symm h1), h2⟩)
        · exact Or.inr (Or.inl ⟨h1, (hconnD y).mp h2⟩)
      · rintro (h1 | ⟨h1, rfl⟩ | ⟨rfl, h2⟩)
        · exact Or.inl h1
        · exact Or.inr (Or.inr ⟨h1, connE_refl _⟩)
        · exact Or.inr (Or.inl ⟨connE_refl _, h2⟩)
  have hmem' : ∀ kv', kv' ∈ setMembers cs k (fun s => addMem s d) ↔
      kv' = (k, addMem kvc.2 d) ∨ (kv' ∈ cs ∧ kv'.1 ≠ k) :=
    fun kv' => mem_setMembers_nodup h.keysNodup hkvc hk1 _
  constructor
  · rw [setMembers_keys]
    exact h.keysNodup
  · intro kv hkv
    rcases (hmem' kv).mp hkv with rfl | ⟨hkv', _⟩
    · exact hk1 ▸ h.keysLt kvc hkvc
    · exact h.keysLt kv hkv'
  · intro kv hkv
    rcases (hmem' kv).mp hkv with rfl | ⟨hkv', _⟩
    · exact addMem_nodup d (h.memNodup kvc hkvc)
    · exact h.memNodup kv hkv'
  · intro kv1 hkv1 kv2 hkv2 hne x hx1 hx2
    rcases (hmem' kv1).mp hkv1 with rfl | ⟨h1, hne1⟩ <;>
      rcases (hmem' kv2).mp hkv2 with rfl | ⟨h2, hne2⟩
    · exact hne rfl
    · rcases (addMem_mem _ _ _).mp hx1 with hx1' | rfl
      · have hkvne : kvc ≠ kv2 := fun hcc => hne2 (by rw [← hcc, hk1])
        exact h.disj kvc hkvc kv2 h2 hkvne x hx1' hx2
      · exact hnrd ⟨kv2, h2, hx2⟩
    · rcases (addMem_mem _ _ _).mp hx2 with hx2' | rfl
      · have hkvne : kv1 ≠ kvc := fun hcc => hne1 (by rw [hcc, hk1])
        exact h.disj kv1 h1 kvc hkvc hkvne x hx1 hx2'
      · exact hnrd ⟨kv1, h1, hx1⟩
    · exact h.disj kv1 h1 kv2 h2 hne x hx1 hx2
  · intro kv hkv
    rcases (hmem' kv).mp hkv with rfl | ⟨hkv', _⟩
    · exact le_trans (h.big kvc hkvc) (addMem_length _ _)
    · exact h.big kv hkv'
  · intro x
    rw [hadj x]
    constructor
    · rintro ⟨kv', hkv', hx⟩
      rcases (hmem' kv').mp hkv' with rfl | ⟨hkv'', _⟩
      · rcases (addMem_mem _ _ _).mp hx with hx' | rfl
        · exact Or.inl ((h.covered x).mp ⟨kvc, hkvc, hx'⟩)
        · exact Or.inr (Or.inr rfl)
      · exact Or.inl ((h.covered x).mp ⟨kv', hkv'', hx⟩)
    · rintro (hx | heq | heq)
      · rcases (h.covered x).mpr hx with ⟨kv, hkv, hxm⟩
        by_cases hkk : kv.1 = k
        · have hkveq : kv = kvc := key_inj h.keysNodup kv hkv kvc hkvc (by rw [hkk, hk1])
          rw [hkveq] at hxm
          exact ⟨(k, addMem kvc.2 d), (hmem' _).mpr (Or.inl rfl),
            (addMem_mem _ _ _).mpr (Or.inl hxm)⟩
        · exact ⟨kv, (hmem' kv).mpr (Or.inr ⟨hkv, hkk⟩), hxm⟩
      · exact ⟨(k, addMem kvc.2 d), (hmem' _).mpr (Or.inl rfl),
          (addMem_mem _ _ _).mpr (Or.inl (heq ▸ hcmem))⟩
      · exact ⟨(k, addMem kvc.2 d), (hmem' _).mpr (Or.inl rfl),
          (addMem_mem _ _ _).mpr (Or.inr heq)⟩
  · intro x y hxy
    rw [hconn x y]
    constructor
    · rintro ⟨kv', hkv', hx, hy⟩
      rcases (hmem' kv').mp hkv' with rfl | ⟨hkv'', _⟩
      · rcases (addMem_mem _ _ _).mp hx with hx' | hxd
        · rcases (addMem_mem _ _ _).mp hy with hy' | hyd
          · exact Or.inl ((h.sameIff x y hxy).mp ⟨kvc, hkvc, hx', hy'⟩)
          · exact Or.inr (Or.inl ⟨connE_symm ((hconnC x).mpr hx'), hyd⟩)
        · rcases (addMem_mem _ _ _).mp hy with hy' | hyd
          · exact Or.inr (Or.inr ⟨hxd, (hconnC y).mpr hy'⟩)
          · exact absurd (hxd.trans hyd.symm) hxy
      · exact Or.inl ((h.sameIff x y hxy).mp ⟨kv', hkv'', hx, hy⟩)
    · rintro (hcxy | ⟨hxc, hyd⟩ | ⟨hxd, hcy⟩)
      · rcases (h.sameIff x y hxy).mpr hcxy with ⟨kv, hkv, hx, hy⟩
        by_cases hkk : kv.1 = k
        · have hkveq : kv = kvc := key_inj h.keysNodup kv hkv kvc hkvc (by rw [hkk, hk1])
          rw [hkveq] at hx hy
          exact ⟨(k, addMem kvc.2 d), (hmem' _).mpr (Or.inl rfl),
            (addMem_mem _ _ _).mpr (Or.inl hx), (addMem_mem _ _ _).mpr (Or.inl hy)⟩
        · exact ⟨kv, (hmem' kv).mpr (Or.inr ⟨hkv, hkk⟩), hx, hy⟩
      · have hx : x ∈ kvc.2 := (hconnC x).mp (connE_symm hxc)
        exact ⟨(k, addMem kvc.2 d), (hmem' _).mpr (Or.inl rfl),
          (addMem_mem _ _ _).mpr (Or.inl hx), (addMem_mem _ _ _).mpr (Or.inr hyd)⟩
      · have hy : y ∈ kvc.2 := (hconnC y).mp hcy
        exact ⟨(k, addMem kvc.2 d), (hmem' _).mpr (Or.inl rfl),
          (addMem_mem _ _ _).mpr (Or.inr hxd), (addMem_mem _ _ _).mpr (Or.inl hy)⟩

/-- Case 4a (lines 89–92, `elif` guard false): both identifiers already
belong to the same cluster; nothing changes. -/
theorem WF_step_same {cs : Registry} {next : ℕ} {es : List (String × String)}
    {a b : String} {k : ℕ} (h : WF cs next es) (hab : a ≠ b)
    (ha : findCluster cs a = some k) (hb : findCluster cs b = some k) :
    WF cs next (es ++ [(a, b)]) := by
  obtain ⟨kva, hkva, hka, hamem⟩ := findCluster_some ha
  obtain ⟨kvb, hkvb, hkb, hbmem⟩ := findCluster_some hb
  have hkvab : kva = kvb := key_inj h.keysNodup kva hkva kvb hkvb (by rw [hka, hkb])
  rw [hkvab] at hamem
  have hconnab : connE es a b := (h.sameIff a b hab).mp ⟨kvb, hkvb, hamem, hbmem⟩
  refine ⟨h.keysNodup, h.keysLt, h.memNodup, h.disj, h.big, ?_, ?_⟩
  · intro x
    rw [h.covered x]
    constructor
    · rintro ⟨y, hy⟩
      exact ⟨y, adjE_append.mpr (Or.inl hy)⟩
    · rintro ⟨y, hy⟩
      rcases adjE_append.mp hy with hy' | ⟨heq, _⟩ | ⟨heq, _⟩
      · exact ⟨y, hy'⟩
      · rw [heq] at *
        exact (h.covered a).mp ⟨kvb, hkvb, hamem⟩
      · rw [heq] at *
        exact (h.covered b).mp ⟨kvb, hkvb, hbmem⟩
  · intro x y hxy
    rw [connE_append_redundant hconnab]
    exact h.sameIff x y hxy

/-- Case 4b (lines 89–92): the identifiers belong to different clusters;
the second cluster's members are folded into the first identifier's cluster
and the second cluster id is deleted from the registry. -/
theorem WF_step_merge {cs : Registry} {next : ℕ} {es : List (String × String)}
    {a b : String} {ka kb : ℕ} (h : WF cs next es)
    (ha : findCluster cs a = some ka) (hb : findCluster cs b = some kb)
    (hk : ka ≠ kb) :
    WF (eraseKey (setMembers cs ka (fun s => unionMem s (membersOf cs kb))) kb) next
      (es ++ [(a, b)]) := by
  obtain ⟨kva, hkva, hka1, hamem⟩ := findCluster_some ha
  obtain ⟨kvb, hkvb, hkb1, hbmem⟩ := findCluster_some hb
  have hMb : membersOf cs kb = kvb.2 := by
    rw [← hkb1]
    exact membersOf_eq h.keysNodup hkvb
  have hconnA : ∀ x, connE es a x ↔ x ∈ kva.2 := h.conn_iff_mem hkva hamem
  have hconnB : ∀ x, connE es b x ↔ x ∈ kvb.2 := h.conn_iff_mem hkvb hbmem
  rw [hMb]
  have hmem1 : ∀ kv', kv' ∈ setMembers cs ka (fun s => unionMem s kvb.2) ↔
      kv' = (ka, unionMem kva.2 kvb.2) ∨ (kv' ∈ cs ∧ kv'.1 ≠ ka) :=
    fun kv' => mem_setMembers_nodup h.keysNodup hkva hka1 _
  have hmem' : ∀ kv', kv' ∈ eraseKey (setMembers cs ka (fun s => unionMem s kvb.2)) kb ↔
      kv' = (ka, unionMem kva.2 kvb.2) ∨ (kv' ∈ cs ∧ kv'.1 ≠ ka ∧ kv'.1 ≠ kb) := by
    intro kv'
    rw [mem_eraseKey, hmem1]
    constructor
    · rintro ⟨rfl | ⟨hkv, hne⟩, hnb⟩
      · exact Or.inl rfl
      · exact Or.inr ⟨hkv, hne, hnb⟩
    · rintro (rfl | ⟨hkv, hne, hnb⟩)
      · exact ⟨Or.inl rfl, hk⟩
      · exact ⟨Or.inr ⟨hkv, hne⟩, hnb⟩
  constructor
  · rw [eraseKey_keys, setMembers_keys]
    exact h.keysNodup.filter _
  · intro kv hkv
    rcases (hmem' kv).mp hkv with rfl | ⟨hkv', _, _⟩
    · exact hka1 ▸ h.keysLt kva hkva
    · exact h.keysLt kv hkv'
  · intro kv hkv
    rcases (hmem' kv).mp hkv with rfl | ⟨hkv', _, _⟩
    · exact unionMem_nodup _ (h.memNodup kva hkva)
    · exact h.memNodup kv hkv'
  · intro kv1 hkv1 kv2 hkv2 hne x hx1 hx2
    rcases (hmem' kv1).mp hkv1 with rfl | ⟨h1, hne1a, hne1b⟩ <;>
      rcases (hmem' kv2).mp hkv2 with rfl | ⟨h2, hne2a, hne2b⟩
    · exact hne rfl
    · rcases (unionMem_mem _ _ _).mp hx1 with hx1' | hx1'
      · have hd : kva ≠ kv2 := fun hc => hne2a (by rw [← hc, hka1])
        exact h.disj kva hkva kv2 h2 hd x hx1' hx2
      · have hd : kvb ≠ kv2 := fun hc => hne2b (by rw [← hc, hkb1])
        exact h.disj kvb hkvb kv2 h2 hd x hx1' hx2
    · rcases (unionMem_mem _ _ _).mp hx2 with hx2' | hx2'
      · have hd : kv1 ≠ kva := fun hc => hne1a (by rw [hc, hka1])
        exact h.disj kv1 h1 kva hkva hd x hx1 hx2'
      · have hd : kv1 ≠ kvb := fun hc => hne1b (by rw [hc, hkb1])
        exact h.disj kv1 h1 kvb hkvb hd x hx1 hx2'
    · exact h.disj kv1 h1 kv2 h2 hne x hx1 hx2
  · intro kv hkv
    rcases (hmem' kv).mp hkv with rfl | ⟨hkv', _, _⟩
    · exact le_trans (h.big kva hkva) (unionMem_length _ _)
    · exact h.big kv hkv'
  · intro x
    constructor
    · rintro ⟨kv', hkv', hx⟩
      rcases (hmem' kv').mp hkv' with rfl | ⟨hkv'', _, _⟩
      · rcases (unionMem_mem _ _ _).mp hx with hx' | hx'
        · rcases (h.covered x).mp ⟨kva, hkva, hx'⟩ with ⟨y, hy⟩
          exact ⟨y, adjE_append.mpr (Or.inl hy)⟩
        · rcases (h.covered x).mp ⟨kvb, hkvb, hx'⟩ with ⟨y, hy⟩
          exact ⟨y, adjE_append.mpr (Or.inl hy)⟩
      · rcases (h.covered x).mp ⟨kv', hkv'', hx⟩ with ⟨y, hy⟩
        exact ⟨y, adjE_append.mpr (Or.inl hy)⟩
    · rintro ⟨y, hy⟩
      have hxreg : inReg cs x := by
        rcases adjE_append.mp hy with hy' | ⟨heq, _⟩ | ⟨heq, _⟩
        · exact (h.covered x).mpr ⟨y, hy'⟩
        · rw [heq]
          exact ⟨kva, hkva, hamem⟩
        · rw [heq]
          exact ⟨kvb, hkvb, hbmem⟩
      rcases hxreg with ⟨kv, hkv, hxm⟩
      by_cases hkka : kv.1 = ka
      · have hkveq : kv = kva := key_inj h.keysNodup kv hkv kva hkva (by rw [hkka, hka1])
        rw [hkveq] at hxm
        exact ⟨(ka, unionMem kva.2 kvb.2), (hmem' _).mpr (Or.inl rfl),
          (unionMem_mem _ _ _).mpr (Or.inl hxm)⟩
      · by_cases hkkb : kv.1 = kb
        · have hkveq : kv = kvb := key_inj h.keysNodup kv hkv kvb hkvb (by rw [hkkb, hkb1])
          rw [hkveq] at hxm
          exact ⟨(ka, unionMem kva.2 kvb.2), (hmem' _).mpr (Or.inl rfl),
            (unionMem_mem _ _ _).mpr (Or.inr hxm)⟩
        · exact ⟨kv, (hmem' kv).mpr (Or.inr ⟨hkv, hkka, hkkb⟩), hxm⟩
  · intro x y hxy
    rw [connE_append_edge]
    constructor
    · rintro ⟨kv', hkv', hx, hy⟩
      rcases (hmem' kv').mp hkv' with rfl | ⟨hkv'', _, _⟩
      · rcases (unionMem_mem _ _ _).mp hx with hx' | hx' <;>
          rcases (unionMem_mem _ _ _).mp hy with hy' | hy'
        · exact Or.inl ((h.sameIff x y hxy).mp ⟨kva, hkva, hx', hy'⟩)
        · exact Or.inr (Or.inl ⟨connE_symm ((hconnA x).mpr hx'), (hconnB y).mpr hy'⟩)
        · exact Or.inr (Or.inr ⟨connE_symm ((hconnB x).mpr hx'), (hconnA y).mpr hy'⟩)
        · exact Or.inl ((h.sameIff x y hxy).mp ⟨kvb, hkvb, hx', hy'⟩)
      · exact Or.inl ((h.sameIff x y hxy).mp ⟨kv', hkv'', hx, hy⟩)
    · rintro (hcxy | ⟨h1, h2⟩ | ⟨h1, h2⟩)
      · rcases (h.sameIff x y hxy).mpr hcxy with ⟨kv, hkv, hx, hy⟩
        by_cases hkka : kv.1 = ka
        · have hkveq : kv = kva := key_inj h.keysNodup kv hkv kva hkva (by rw [hkka, hka1])
          rw [hkveq] at hx hy
          exact ⟨(ka, unionMem kva.2 kvb.2), (hmem' _).mpr (Or.inl rfl),
            (unionMem_mem _ _ _).mpr (Or.inl hx), (unionMem_mem _ _ _).mpr (Or.inl hy)⟩
        · by_cases hkkb : kv.1 = kb
          · have hkveq : kv = kvb := key_inj h.keysNodup kv hkv kvb hkvb (by rw [hkkb, hkb1])
            rw [hkveq] at hx hy
            exact ⟨(ka, unionMem kva.2 kvb.2), (hmem' _).mpr (Or.inl rfl),
              (unionMem_mem _ _ _).mpr (Or.inr hx), (unionMem_mem _ _ _).mpr (Or.inr hy)⟩
          · exact ⟨kv, (hmem' kv).mpr (Or.inr ⟨hkv, hkka, hkkb⟩), hx, hy⟩
      · have hx : x ∈ kva.2 := (hconnA x).mp (connE_symm h1)
        have hy : y ∈ kvb.2 := (hconnB y).mp h2
        exact ⟨(ka, unionMem kva.2 kvb.2), (hmem' _).mpr (Or.inl rfl),
          (unionMem_mem _ _ _).mpr (Or.inl hx), (unionMem_mem _ _ _).mpr (Or.inr hy)⟩
      · have hx : x ∈ kvb.2 := (hconnB x).mp (connE_symm h1)
        have hy : y ∈ kva.2 := (hconnA y).mp h2
        exact ⟨(ka, unionMem kva.2 kvb.2), (hmem' _).mpr (Or.inl rfl),
          (unionMem_mem _ _ _).mpr (Or.inr hx), (unionMem_mem _ _ _).mpr (Or.inl hy)⟩

/-- One guarded merge (lines 74–92) preserves the invariant, with the new
edge recorded. -/
theorem WF_mergeStep {cs : Registry} {next : ℕ} {es : List (String × String)}
    {a b : String} (h : WF cs next es) (hab : a ≠ b) :
    WF (mergeStep (cs, next) a b).1 (mergeStep (cs, next) a b).2 (es ++ [(a, b)]) := by
  cases hfa : findCluster cs a with
  | none =>
    cases hfb : findCluster cs b with
    | none =>
      have hms : mergeStep (cs, next) a b = (cs ++ [(next, addMem [a] b)], next + 1) := by
        unfold mergeStep
        rw [hfa, hfb]
      rw [hms]
      exact WF_step_new h hab hfa hfb
    | some cj =>
      have hms : mergeStep (cs, next) a b = (setMembers cs cj (fun s => addMem s a), next) := by
        unfold mergeStep
        rw [hfa, hfb]
      rw [hms]
      exact WF_step_add h (Ne.symm hab) hfb hfa (Or.inr rfl)
  | some ci =>
    cases hfb : findCluster cs b with
    | none =>
      have hms : mergeStep (cs, next) a b = (setMembers cs ci (fun s => addMem s b), next) := by
        unfold mergeStep
        rw [hfa, hfb]
      rw [hms]
      exact WF_step_add h hab hfa hfb (Or.inl rfl)
    | some cj =>
      by_cases hij : ci = cj
      · have hms : mergeStep (cs, next) a b = (cs, next) := by
          unfold mergeStep
          rw [hfa, hfb]
          show (if ci = cj then ((cs, next) : Registry × ℕ)
            else (eraseKey (setMembers cs ci fun s => unionMem s (membersOf cs cj)) cj, next)) =
              (cs, next)
          rw [if_pos hij]
        rw [hms]
        exact WF_step_same h hab hfa (by rw [hfb, hij])
      · have hms : mergeStep (cs, next) a b =
            (eraseKey (setMembers cs ci (fun s => unionMem s (membersOf cs cj))) cj, next) := by
          unfold mergeStep
          rw [hfa, hfb]
          show (if ci = cj then ((cs, next) : Registry × ℕ)
            else (eraseKey (setMembers cs ci fun s => unionMem s (membersOf cs cj)) cj, next)) =
              (eraseKey (setMembers cs ci fun s => unionMem s (membersOf cs cj)) cj, next)
          rw [if_neg hij]
        rw [hms]
        exact WF_step_merge h hfa hfb hij

theorem WF_foldEdges {cs : Registry} {next : ℕ} {es : List (String × String)}
    (h : WF cs next es) (es2 : List (String × String))
    (hirr : ∀ e ∈ es2, e.1 ≠ e.2) :
    WF (foldEdges (cs, next) es2).1 (foldEdges (cs, next) es2).2 (es ++ es2) := by
  induction es2 generalizing cs next es with
  | nil => simpa using h
  | cons e es2 ih =>
    have hstep := WF_mergeStep h (hirr e (List.mem_cons_self e es2))
    have hrest := ih hstep (fun e' he' => hirr e' (List.mem_cons_of_mem _ he'))
    simpa [List.append_assoc] using hrest

/-- The starting state satisfies the invariant for the empty edge list. -/
theorem WF_nil : WF [] 0 [] := by
  constructor
  · simp
  · intro kv hkv
    cases hkv
  · intro kv hkv
    cases hkv
  · intro kv hkv
    cases hkv
  · intro kv hkv
    cases hkv
  · intro x
    constructor
    · rintro ⟨kv, hkv, _⟩
      cases hkv
    · rintro ⟨y, hy | hy⟩ <;> cases hy
  · intro x y hxy
    constructor
    · rintro ⟨kv, hkv, _⟩
      cases hkv
    · intro hc
      have : ∀ z, ¬ adjE [] x z := by
        rintro z (hz | hz) <;> cases hz
      exact absurd (connE_isolated this hc).symm hxy

theorem trueEdges_cons_true {items : List (String × List ℚ)} {t : ℚ}
    {i j : ℕ} {rest : List (ℕ × ℕ)}
    (h : simGE (vecAt items i) (vecAt items j) t = true) :
    trueEdges items t ((i, j) :: rest) =
      (nameAt items i, nameAt items j) :: trueEdges items t rest := by
  unfold trueEdges
  rw [List.filter_cons]
  simp [h]

theorem trueEdges_cons_false {items : List (String × List ℚ)} {t : ℚ}
    {i j : ℕ} {rest : List (ℕ × ℕ)}
    (h : simGE (vecAt items i) (vecAt items j) t = false) :
    trueEdges items t ((i, j) :: rest) = trueEdges items t rest := by
  unfold trueEdges
  rw [List.filter_cons]
  simp [h]

theorem trueEdges_mem {items : List (String × List ℚ)} {t : ℚ}
    {ps : List (ℕ × ℕ)} {e : String × String} :
    e ∈ trueEdges items t ps ↔
      ∃ ij ∈ ps, simGE (vecAt items ij.1) (vecAt items ij.2) t = true ∧
        e = (nameAt items ij.1, nameAt items ij.2) := by
  unfold trueEdges
  simp only [List.mem_map, List.mem_filter]
  constructor
  · rintro ⟨ij, ⟨hij, hsim⟩, rfl⟩
    exact ⟨ij, hij, hsim, rfl⟩
  · rintro ⟨ij, hij, hsim, rfl⟩
    exact ⟨ij, ⟨hij, hsim⟩, rfl⟩

theorem runPairs_eq_foldEdges {items : List (String × List ℚ)} {t : ℚ} :
    ∀ (ps : List (ℕ × ℕ)) (st st' : Registry × ℕ),
      runPairs items t ps st = .ok st' → st' = foldEdges st (trueEdges items t ps) := by
  intro ps
  induction ps with
  | nil =>
    intro st st' h
    cases h
    rfl
  | cons ij rest ih =>
    intro st st' h
    obtain ⟨i, j⟩ := ij
    unfold runPairs at h
    by_cases hsh : (vecAt items i).length ≠ (vecAt items j).length
    · rw [if_pos hsh] at h
      cases h
    · rw [if_neg hsh] at h
      by_cases hsim : simGE (vecAt items i) (vecAt items j) t = true
      · rw [if_pos hsim] at h
        rw [trueEdges_cons_true hsim]
        exact ih _ _ h
      · rw [if_neg hsim] at h
        rw [trueEdges_cons_false (Bool.of_not_eq_true hsim)]
        exact ih _ _ h

/-- A single shape mismatch anywhere in the pair list aborts the whole scan
with the shape error. -/
theorem runPairs_error {items : List (String × List ℚ)} {t : ℚ} :
    ∀ (ps : List (ℕ × ℕ)),
      (∃ ij ∈ ps, (vecAt items ij.1).length ≠ (vecAt items ij.2).length) →
      ∀ st, runPairs items t ps st = .error .ShapeMismatch := by
  intro ps
  induction ps with
  | nil =>
    rintro ⟨ij, hij, _⟩
    cases hij
  | cons ij rest ih =>
    intro hbad st
    obtain ⟨i, j⟩ := ij
    unfold runPairs
    by_cases hsh : (vecAt items i).length ≠ (vecAt items j).length
    · rw [if_pos hsh]
    · rw [if_neg hsh]
      have hbad' : ∃ ij ∈ rest, (vecAt items ij.1).length ≠ (vecAt items ij.2).length := by
        rcases hbad with ⟨ij', hij', hne⟩
        rcases List.mem_cons.mp hij' with heq | h'
        · rw [heq] at hne
          exact absurd hne hsh
        · exact ⟨ij', h', hne⟩
      by_cases hsim : simGE (vecAt items i) (vecAt items j) t = true
      · rw [if_pos hsim]
        exact ih hbad' _
      · rw [if_neg hsim]
        exact ih hbad' _

/-- If every pair agrees in dimension, the scan cannot fail. -/
theorem runPairs_ok {items : List (String × List ℚ)} {t : ℚ} :
    ∀ (ps : List (ℕ × ℕ)),
      (∀ ij ∈ ps, (vecAt items ij.1).length = (vecAt items ij.2).length) →
      ∀ st, ∃ st', runPairs items t ps st = .ok st' := by
  intro ps
  induction ps with
  | nil =>
    intro _ st
    exact ⟨st, rfl⟩
  | cons ij rest ih =>
    intro hgood st
    obtain ⟨i, j⟩ := ij
    unfold runPairs
    have hsh : ¬ (vecAt items i).length ≠ (vecAt items j).length :=
      fun hc => hc (hgood (i, j) (List.mem_cons_self _ _))
    rw [if_neg hsh]
    have hgood' : ∀ ij ∈ rest, (vecAt items ij.1).length = (vecAt items ij.2).length :=
      fun ij' h' => hgood ij' (List.mem_cons_of_mem _ h')
    by_cases hsim : simGE (vecAt items i) (vecAt items j) t = true
    · rw [if_pos hsim]
      exact ih hgood' _
    · rw [if_neg hsim]
      exact ih hgood' _

/-! ## Identifiers and the similarity graph of the claims -/

theorem nameAt_mem {items : List (String × List ℚ)} {i : ℕ} (h : i < items.length) :
    (nameAt items i, vecAt items i) ∈ items := by
  unfold nameAt vecAt
  rw [List.getD_eq_getElem _ _ h]
  simp [List.getElem_mem]

theorem nameAt_ne {items : List (String × List ℚ)} (hnd : (items.map Prod.fst).Nodup)
    {i j : ℕ} (hi : i < items.length) (hj : j < items.length) (hij : i ≠ j) :
    nameAt items i ≠ nameAt items j := by
  intro hc
  unfold nameAt at hc
  rw [List.getD_eq_getElem _ _ hi, List.getD_eq_getElem _ _ hj] at hc
  have hi' : i < (items.map Prod.fst).length := by simpa using hi
  have hj' : j < (items.map Prod.fst).length := by simpa using hj
  have hmap : (items.map Prod.fst)[i] = (items.map Prod.fst)[j] := by
    rw [List.getElem_map, List.getElem_map]
    exact hc
  exact hij ((hnd.getElem_inj_iff).mp hmap)

/-- With unique identifiers, a recorded edge of the full scan is the same
thing as an edge of the similarity graph. -/
theorem adjE_trueEdges {items : List (String × List ℚ)} {t : ℚ}
    (hnd : (items.map Prod.fst).Nodup) {a b : String} :
    adjE (trueEdges items t (pairList items.length)) a b ↔ simEdge items t a b := by
  constructor
  · intro h
    have key : ∀ u v : String,
        (u, v) ∈ trueEdges items t (pairList items.length) → simEdge items t u v := by
      intro u v huv
      rcases trueEdges_mem.mp huv with ⟨ij, hij, hsim, heq⟩
      obtain ⟨i, j⟩ := ij
      rcases mem_pairList.mp hij with ⟨h1, h2⟩
      have hi : i < items.length := lt_trans h1 h2
      have heq1 : u = nameAt items i := congrArg Prod.fst heq
      have heq2 : v = nameAt items j := congrArg Prod.snd heq
      rw [heq1, heq2]
      exact ⟨nameAt_ne hnd hi h2 (Nat.ne_of_lt h1), vecAt items i, vecAt items j,
        nameAt_mem hi, nameAt_mem h2, hsim⟩
    rcases h with h | h
    · exact key a b h
    · rcases key b a h with ⟨hne, va, vb, hma, hmb, hsim⟩
      exact ⟨Ne.symm hne, vb, va, hmb, hma, by rw [simGE_comm]; exact hsim⟩
  · rintro ⟨hab, va, vb, hma, hmb, hsim⟩
    rcases List.mem_iff_getElem.mp hma with ⟨i, hi, hia⟩
    rcases List.mem_iff_getElem.mp hmb with ⟨j, hj, hjb⟩
    have hna : nameAt items i = a := by
      unfold nameAt
      rw [List.getD_eq_getElem _ _ hi, hia]
    have hnb : nameAt items j = b := by
      unfold nameAt
      rw [List.getD_eq_getElem _ _ hj, hjb]
    have hva : vecAt items i = va := by
      unfold vecAt
      rw [List.getD_eq_getElem _ _ hi, hia]
    have hvb : vecAt items j = vb := by
      unfold vecAt
      rw [List.getD_eq_getElem _ _ hj, hjb]
    have hij : i ≠ j := by
      intro hc
      rw [← hna, ← hnb, hc] at hab
      exact hab rfl
    rcases Nat.lt_or_ge i j with hlt | hge
    · left
      refine trueEdges_mem.mpr ⟨(i, j), mem_pairList.mpr ⟨hlt, hj⟩, ?_, ?_⟩
      · rw [hva, hvb]
        exact hsim
      · rw [hna, hnb]
    · have hlt : j < i := lt_of_le_of_ne hge (Ne.symm hij)
      right
      refine trueEdges_mem.mpr ⟨(j, i), mem_pairList.mpr ⟨hlt, hi⟩, ?_, ?_⟩
      · rw [hva, hvb, simGE_comm]
        exact hsim
      · rw [hna, hnb]

theorem connE_trueEdges {items : List (String × List ℚ)} {t : ℚ}
    (hnd : (items.map Prod.fst).Nodup) {a b : String} :
    connE (trueEdges items t (pairList items.length)) a b ↔ simConn items t a b := by
  constructor
  · exact Relation.ReflTransGen.mono (fun x y hxy => (adjE_trueEdges hnd).mp hxy)
  · exact Relation.ReflTransGen.mono (fun x y hxy => (adjE_trueEdges hnd).mpr hxy)

/-! ## The invariant holds at every point of the scan -/

theorem runPairs_WF {items : List (String × List ℚ)} {t : ℚ} {ps : List (ℕ × ℕ)}
    (hnd : (items.map Prod.fst).Nodup)
    (hps : ∀ ij ∈ ps, ij.1 < ij.2 ∧ ij.2 < items.length)
    {st : Registry × ℕ} (hok : runPairs items t ps ([], 0) = .ok st) :
    WF st.1 st.2 (trueEdges items t ps) := by
  have heq := runPairs_eq_foldEdges ps ([], 0) st hok
  have hirr : ∀ e ∈ trueEdges items t ps, e.1 ≠ e.2 := by
    intro e he
    rcases trueEdges_mem.mp he with ⟨ij, hij, _, heq'⟩
    rcases hps ij hij with ⟨h1, h2⟩
    rw [heq']
    exact nameAt_ne hnd (lt_trans h1 h2) h2 (Nat.ne_of_lt h1)
  have hwf := WF_foldEdges WF_nil _ hirr
  rw [heq]
  simpa using hwf

/-- The final registry of a successful run satisfies the invariant for the
full scan. -/
theorem compare_ok_WF {items : List (String × List ℚ)} {t : ℚ} {cs : Registry}
    (hnd : (items.map Prod.fst).Nodup)
    (hok : compare_embeddings items t = .ok cs) :
    ∃ next, WF cs next (trueEdges items t (pairList items.length)) := by
  unfold compare_embeddings at hok
  cases hrun : runPairs items t (pairList items.length) ([], 0) with
  | error e =>
    rw [hrun] at hok
    cases hok
  | ok st =>
    rw [hrun] at hok
    have hcs : st.1 = cs := by
      have hok' : (Except.ok st.1 : Except Err Registry) = Except.ok cs := hok
      simpa using hok'
    have hps : ∀ ij ∈ pairList items.length, ij.1 < ij.2 ∧ ij.2 < items.length := by
      intro ij hij
      obtain ⟨i, j⟩ := ij
      exact mem_pairList.mp hij
    have hwf := runPairs_WF hnd hps hrun
    exact ⟨st.2, hcs ▸ hwf⟩

theorem matchedIn_iff {items : List (String × List ℚ)} {t : ℚ}
    {ps : List (ℕ × ℕ)} {x : String} :
    matchedIn items t ps x ↔ ∃ y, adjE (trueEdges items t ps) x y := by
  constructor
  · rintro ⟨ij, hij, hsim, hx | hx⟩
    · exact ⟨nameAt items ij.2, Or.inl (trueEdges_mem.mpr ⟨ij, hij, hsim, by rw [hx]⟩)⟩
    · exact ⟨nameAt items ij.1, Or.inr (trueEdges_mem.mpr ⟨ij, hij, hsim, by rw [hx]⟩)⟩
  · rintro ⟨y, hy | hy⟩ <;> rcases trueEdges_mem.mp hy with ⟨ij, hij, hsim, heq⟩
    · exact ⟨ij, hij, hsim, Or.inl (congrArg Prod.fst heq)⟩
    · exact ⟨ij, hij, hsim, Or.inr (congrArg Prod.snd heq)⟩

/-! ## Claim theorems -/

/-- C1: for every input embedding sequence (with unique identifiers, as the
base names of distinct files in one directory are) and threshold, the
clusters produced by `compare_embeddings` are exactly the connected
components, restricted to components of two or more items, of the graph
whose vertices are the item identifiers and whose edges are the pairs with
cosine similarity at or above the threshold: every cluster has at least two
memberses and is precisely the connectivity class of each of its members,
and the two endpoints of any edge lie together in some cluster (so in the
transitivity scenario sim(A,B) ≥ t, sim(B,C) ≥ t, sim(A,C) < t, all of A,
B, C land in the single cluster that is their common component). -/
theorem clusters_are_components (items : List (String × List ℚ)) (t : ℚ)
    (cs : Registry) (hnd : (items.map Prod.fst).Nodup)
    (hok : compare_embeddings items t = .ok cs) :
    (∀ kv ∈ cs, 2 ≤ kv.2.length ∧ ∀ a ∈ kv.2, ∀ x, (x ∈ kv.2 ↔ simConn items t a x)) ∧
    (∀ a b, simEdge items t a b → ∃ kv ∈ cs, a ∈ kv.2 ∧ b ∈ kv.2) := by
  obtain ⟨next, hwf⟩ := compare_ok_WF hnd hok
  constructor
  · intro kv hkv
    refine ⟨hwf.big kv hkv, ?_⟩
    intro a ha x
    rw [← connE_trueEdges hnd]
    exact (hwf.conn_iff_mem hkv ha x).symm
  · intro a b hedge
    have hadj := (adjE_trueEdges hnd).mpr hedge
    obtain ⟨kv, hkv, hamem⟩ := (hwf.covered a).mpr ⟨b, hadj⟩
    exact ⟨kv, hkv, hamem, (hwf.conn_iff_mem hkv hamem b).mp (connE_of_adj hadj)⟩

/-- Witness for C1 at a two-item input whose vectors agree. -/
theorem clusters_are_components_witness :
    compare_embeddings [("a", [(1:ℚ)]), ("b", [1])] (1/2) = .ok [(0, ["a", "b"])] ∧
      ∃ kv ∈ ([((0:ℕ), ["a", "b"])] : Registry), "a" ∈ kv.2 ∧ "b" ∈ kv.2 :=
  ⟨by decide,
    (clusters_are_components [("a", [(1:ℚ)]), ("b", [1])] (1/2) [(0, ["a", "b"])]
        (by decide) (by decide)).2 "a" "b"
      ⟨by decide, [1], [1], by decide, by decide, by decide⟩⟩

/-- C2: at every point of the pairwise scan (after any processed pair
list), and hence in the final output, distinct clusters of the registry are
disjoint, and every identifier that has matched at least one other
identifier so far belongs to exactly one cluster. -/
theorem registry_disjoint_unique (items : List (String × List ℚ)) (t : ℚ)
    (p q : List (ℕ × ℕ)) (st : Registry × ℕ)
    (hnd : (items.map Prod.fst).Nodup)
    (hsplit : pairList items.length = p ++ q)
    (hok : runPairs items t p ([], 0) = .ok st) :
    (∀ kv1 ∈ st.1, ∀ kv2 ∈ st.1, kv1.1 ≠ kv2.1 → ∀ x, x ∈ kv1.2 → x ∉ kv2.2) ∧
    (∀ x, matchedIn items t p x →
      ∃! kv : ℕ × List String, kv ∈ st.1 ∧ x ∈ kv.2) := by
  have hps : ∀ ij ∈ p, ij.1 < ij.2 ∧ ij.2 < items.length := by
    intro ij hij
    obtain ⟨i, j⟩ := ij
    exact mem_pairList.mp (hsplit ▸ List.mem_append_left q hij)
  have hwf := runPairs_WF hnd hps hok
  constructor
  · intro kv1 h1 kv2 h2 hkne x hx1 hx2
    exact hwf.disj kv1 h1 kv2 h2 (fun hc => hkne (congrArg Prod.fst hc)) x hx1 hx2
  · intro x hm
    obtain ⟨y, hy⟩ := matchedIn_iff.mp hm
    obtain ⟨kv, hkv, hx⟩ := (hwf.covered x).mpr ⟨y, hy⟩
    exact ⟨kv, ⟨hkv, hx⟩, fun kv' hkv' => hwf.owner_unique hkv'.1 hkv hkv'.2 hx⟩

/-- Witness for C2 on the full scan of a two-item input. -/
theorem registry_disjoint_unique_witness :
    runPairs [("a", [(1:ℚ)]), ("b", [1])] (1/2) [(0, 1)] ([], 0) =
        .ok ([(0, ["a", "b"])], 1) ∧
      ∃! kv : ℕ × List String, kv ∈ [((0:ℕ), ["a", "b"])] ∧ "a" ∈ kv.2 :=
  ⟨by decide,
    (registry_disjoint_unique [("a", [(1:ℚ)]), ("b", [1])] (1/2) [(0, 1)] []
        ([(0, ["a", "b"])], 1) (by decide) (by decide) (by decide)).2 "a" (by decide)⟩

/-- C10: at every point of the scan, every registered cluster has at least
two members: clusters are created with two members and only ever grow. -/
theorem clusters_min_size (items : List (String × List ℚ)) (t : ℚ)
    (p q : List (ℕ × ℕ)) (st : Registry × ℕ)
    (hnd : (items.map Prod.fst).Nodup)
    (hsplit : pairList items.length = p ++ q)
    (hok : runPairs items t p ([], 0) = .ok st) :
    ∀ kv ∈ st.1, 2 ≤ kv.2.length := by
  have hps : ∀ ij ∈ p, ij.1 < ij.2 ∧ ij.2 < items.length := by
    intro ij hij
    obtain ⟨i, j⟩ := ij
    exact mem_pairList.mp (hsplit ▸ List.mem_append_left q hij)
  exact (runPairs_WF hnd hps hok).big

/-- Witness for C10 on the full scan of a two-item input. -/
theorem clusters_min_size_witness :
    2 ≤ (((0:ℕ), ["a", "b"]) : ℕ × List String).2.length :=
  clusters_min_size [("a", [(1:ℚ)]), ("b", [1])] (1/2) [(0, 1)] []
    ([(0, ["a", "b"])], 1) (by decide) (by decide) (by decide)
    (0, ["a", "b"]) (by decide)

/-- C7: an empty input yields an empty registry, and a one-item input also
yields an empty cluster list — no pair exists, so nothing is reported. -/
theorem empty_and_single_inputs :
    (∀ t : ℚ, compare_embeddings [] t = .ok []) ∧
    (∀ (t : ℚ) (nm : String) (v : List ℚ), compare_embeddings [(nm, v)] t = .ok []) :=
  ⟨fun _ => rfl, fun _ _ _ => rfl⟩

/-- C4: two items of differing dimensionality make the whole call fail with
the shape error (sklearn's dimension check on the first offending pair),
and no partial clustering is returned. -/
theorem shape_mismatch_fatal (items : List (String × List ℚ)) (t : ℚ) (i j : ℕ)
    (hi : i < items.length) (hj : j < items.length)
    (hne : (vecAt items i).length ≠ (vecAt items j).length) :
    compare_embeddings items t = .error .ShapeMismatch := by
  have hij : i ≠ j := fun hc => hne (by rw [hc])
  have hbad : ∃ ij ∈ pairList items.length,
      (vecAt items ij.1).length ≠ (vecAt items ij.2).length := by
    rcases Nat.lt_or_ge i j with hlt | hge
    · exact ⟨(i, j), mem_pairList.mpr ⟨hlt, hj⟩, hne⟩
    · have hlt : j < i := lt_of_le_of_ne hge (Ne.symm hij)
      exact ⟨(j, i), mem_pairList.mpr ⟨hlt, hi⟩, fun hc => hne hc.symm⟩
  unfold compare_embeddings
  rw [runPairs_error _ hbad _]
  rfl

/-- Witness for C4: a 1-dimensional and a 2-dimensional vector. -/
theorem shape_mismatch_fatal_witness :
    (0:ℕ) < 2 ∧
      compare_embeddings [("a", [(1:ℚ)]), ("b", [1, 2])] 0 = .error .ShapeMismatch :=
  ⟨by decide,
    shape_mismatch_fatal [("a", [(1:ℚ)]), ("b", [1, 2])] 0 0 1 (by decide) (by decide) (by decide)⟩

/-- C3 counterexample: the claim says a zero-norm vector makes the call
fail with `DegenerateVector` before any cluster output.  In the code,
sklearn's `normalize` keeps zero rows as zero, so such a pair silently gets
similarity 0; with threshold 0 the two zero vectors are even clustered
together, and no error of any kind is raised. -/
theorem zero_vector_not_rejected :
    compare_embeddings [("a", [(0:ℚ), 0]), ("b", [0, 0])] 0 = .ok [(0, ["a", "b"])] ∧
      compare_embeddings [("a", [(0:ℚ), 0]), ("b", [0, 0])] 0 ≠ .error .DegenerateVector := by
  constructor
  · decide
  · decide

/-- C3 amended: zero-norm vectors are not rejected.  Whenever all vectors
share one dimension the call succeeds, and any pair involving a zero-norm
vector silently scores exactly 0, so it matches exactly the thresholds
`t ≤ 0`. -/
theorem zero_norm_silent_zero (items : List (String × List ℚ)) (t : ℚ) (d : ℕ)
    (hdim : ∀ p ∈ items, p.2.length = d) :
    (∃ cs, compare_embeddings items t = .ok cs) ∧
      ∀ v w : List ℚ, sqNorm v = 0 → simGE v w t = decide (t ≤ 0) := by
  constructor
  · have hgood : ∀ ij ∈ pairList items.length,
        (vecAt items ij.1).length = (vecAt items ij.2).length := by
      intro ij hij
      obtain ⟨i, j⟩ := ij
      rcases mem_pairList.mp hij with ⟨h1, h2⟩
      have hvi : (vecAt items i).length = d := hdim _ (nameAt_mem (lt_trans h1 h2))
      have hvj : (vecAt items j).length = d := hdim _ (nameAt_mem h2)
      rw [hvi, hvj]
    rcases runPairs_ok _ hgood ([], 0) with ⟨st, hst⟩
    refine ⟨st.1, ?_⟩
    unfold compare_embeddings
    rw [hst]
    rfl
  · intro v w hv
    unfold simGE
    rw [if_pos (Or.inl hv)]

/-- Witness for the amended C3: a zero vector next to an ordinary one. -/
theorem zero_norm_silent_zero_witness :
    simGE [(0:ℚ), 0] [3, 4] 1 = decide ((1:ℚ) ≤ 0) ∧
      compare_embeddings [("z", [(0:ℚ), 0]), ("b", [3, 4])] 1 = .ok [] :=
  ⟨(zero_norm_silent_zero [("z", [(0:ℚ), 0]), ("b", [3, 4])] 1 2
      (by decide)).2 [0, 0] [3, 4] (by decide),
    by decide⟩

/-- C9 counterexample: a merge need not keep the id of the *first
registered* of the two clusters.  With the five vectors below at threshold
1/2, the matching pairs are (a,e), (b,c) and (c,e), in that processing
order.  After the first eight index pairs the registry is
`[(0, {a,e}), (1, {b,c})]` — id 0 was registered first.  The ninth pair
`(2,4)` = (c, e) merges the two clusters keeping id 1, the cluster of the
pair's first identifier c, and deletes the first-registered id 0. -/
theorem merge_keeps_second_registered_id :
    runPairs
        [("a", [(1:ℚ), 0, 0]), ("b", [0, 0, 1]), ("c", [0, 1, 1]),
          ("d", [-1, -1, -1]), ("e", [1, 1, 0])] (1/2)
        ((pairList 5).take 8) ([], 0) =
      .ok ([(0, ["a", "e"]), (1, ["b", "c"])], 2) ∧
    compare_embeddings
        [("a", [(1:ℚ), 0, 0]), ("b", [0, 0, 1]), ("c", [0, 1, 1]),
          ("d", [-1, -1, -1]), ("e", [1, 1, 0])] (1/2) =
      .ok [(1, ["b", "c", "a", "e"])] := by
  constructor
  · decide
  · decide

/-- C9 amended: when the pair (i, j) matches and both identifiers are
already registered, then if they share one cluster the step is a no-op,
and if their clusters differ the two are merged under the id of *i's*
cluster (not necessarily the first-registered of the two): i's cluster's
members become the union, the other id disappears from the key list, and
every other cluster is untouched. -/
theorem mergeStep_registered (cs : Registry) (next : ℕ) (fi fj : String) (ci cj : ℕ)
    (hi : findCluster cs fi = some ci) (hj : findCluster cs fj = some cj) :
    (ci = cj → mergeStep (cs, next) fi fj = (cs, next)) ∧
    (ci ≠ cj →
      (mergeStep (cs, next) fi fj).2 = next ∧
      (mergeStep (cs, next) fi fj).1.map Prod.fst =
        (cs.map Prod.fst).filter (fun x => decide (x ≠ cj)) ∧
      (∀ x, x ∈ membersOf (mergeStep (cs, next) fi fj).1 ci ↔
        x ∈ membersOf cs ci ∨ x ∈ membersOf cs cj) ∧
      (∀ k, k ≠ ci → k ≠ cj →
        membersOf (mergeStep (cs, next) fi fj).1 k = membersOf cs k)) := by
  constructor
  · intro hij
    unfold mergeStep
    rw [hi, hj]
    show (if ci = cj then ((cs, next) : Registry × ℕ)
      else (eraseKey (setMembers cs ci fun s => unionMem s (membersOf cs cj)) cj, next)) =
        (cs, next)
    rw [if_pos hij]
  · intro hij
    have hms : mergeStep (cs, next) fi fj =
        (eraseKey (setMembers cs ci fun s => unionMem s (membersOf cs cj)) cj, next) := by
      unfold mergeStep
      rw [hi, hj]
      show (if ci = cj then ((cs, next) : Registry × ℕ)
        else (eraseKey (setMembers cs ci fun s => unionMem s (membersOf cs cj)) cj, next)) =
          (eraseKey (setMembers cs ci fun s => unionMem s (membersOf cs cj)) cj, next)
      rw [if_neg hij]
    rw [hms]
    have hex : ∃ kv ∈ cs, kv.1 = ci := by
      rcases findCluster_some hi with ⟨kv, hkv, hk, _⟩
      exact ⟨kv, hkv, hk⟩
    refine ⟨rfl, ?_, ?_, ?_⟩
    · rw [eraseKey_keys, setMembers_keys]
    · intro x
      rw [membersOf_eraseKey_ne hij, membersOf_setMembers_same _ hex, unionMem_mem]
    · intro k hki hkj
      rw [membersOf_eraseKey_ne hkj, membersOf_setMembers_ne _ hki]

/-- Witness for the amended C9 on a two-cluster registry. -/
theorem mergeStep_registered_witness :
    findCluster [(0, ["a", "b"]), (1, ["c", "d"])] "a" = some 0 ∧
      (mergeStep (([(0, ["a", "b"]), (1, ["c", "d"])] : Registry), 2) "a" "c").1.map Prod.fst =
        (([(0, ["a", "b"]), (1, ["c", "d"])] : Registry).map Prod.fst).filter
          (fun x => decide (x ≠ 1)) :=
  ⟨by decide,
    ((mergeStep_registered [(0, ["a", "b"]), (1, ["c", "d"])] 2 "a" "c" 0 1
        (by decide) (by decide)).2 (by decide)).2.1⟩

theorem simEdge_antitone {items : List (String × List ℚ)} {t1 t2 : ℚ}
    (h12 : t1 ≤ t2) {a b : String} (h : simEdge items t2 a b) :
    simEdge items t1 a b := by
  rcases h with ⟨hab, va, vb, hma, hmb, hsim⟩
  exact ⟨hab, va, vb, hma, hmb, simGE_antitone h12 va vb hsim⟩

/-- C6: for a fixed input with unique identifiers, clustering is antitone
in the threshold.  Each cluster at the higher threshold is contained in the
cluster of the same items at the lower threshold (so no cluster grows),
and the set — hence the number — of items covered by clusters can only
shrink as the threshold rises. -/
theorem threshold_antitone (items : List (String × List ℚ)) (t1 t2 : ℚ)
    (cs1 cs2 : Registry) (hnd : (items.map Prod.fst).Nodup) (h12 : t1 ≤ t2)
    (hok1 : compare_embeddings items t1 = .ok cs1)
    (hok2 : compare_embeddings items t2 = .ok cs2) :
    (∀ kv2 ∈ cs2, ∃ kv1 ∈ cs1,
      (∀ x, x ∈ kv2.2 → x ∈ kv1.2) ∧ kv2.2.length ≤ kv1.2.length) ∧
    (cs2.flatMap Prod.snd).toFinset ⊆ (cs1.flatMap Prod.snd).toFinset ∧
    (cs2.flatMap Prod.snd).toFinset.card ≤ (cs1.flatMap Prod.snd).toFinset.card := by
  obtain ⟨n1, hwf1⟩ := compare_ok_WF hnd hok1
  obtain ⟨n2, hwf2⟩ := compare_ok_WF hnd hok2
  have hconn : ∀ a b, simConn items t2 a b → simConn items t1 a b :=
    fun a b h => Relation.ReflTransGen.mono (fun x y hxy => simEdge_antitone h12 hxy) h
  have main : ∀ kv2 ∈ cs2, ∃ kv1 ∈ cs1, ∀ x, x ∈ kv2.2 → x ∈ kv1.2 := by
    intro kv2 hkv2
    have hne : kv2.2 ≠ [] := by
      intro hc
      have := hwf2.big kv2 hkv2
      rw [hc] at this
      simp at this
    obtain ⟨a, ha⟩ := List.exists_mem_of_ne_nil _ hne
    obtain ⟨y, hy⟩ := (hwf2.covered a).mp ⟨kv2, hkv2, ha⟩
    have hedge1 : simEdge items t1 a y :=
      simEdge_antitone h12 ((adjE_trueEdges hnd).mp hy)
    obtain ⟨kv1, hkv1, ha1⟩ :=
      (hwf1.covered a).mpr ⟨y, (adjE_trueEdges hnd).mpr hedge1⟩
    refine ⟨kv1, hkv1, fun x hx => ?_⟩
    have h2 : simConn items t2 a x :=
      (connE_trueEdges hnd).mp ((hwf2.conn_iff_mem hkv2 ha x).mpr hx)
    exact (hwf1.conn_iff_mem hkv1 ha1 x).mp ((connE_trueEdges hnd).mpr (hconn a x h2))
  have hsub : (cs2.flatMap Prod.snd).toFinset ⊆ (cs1.flatMap Prod.snd).toFinset := by
    intro x hx
    rw [List.mem_toFinset, List.mem_flatMap] at hx
    rcases hx with ⟨kv2, hkv2, hx2⟩
    rcases main kv2 hkv2 with ⟨kv1, hkv1, hincl⟩
    rw [List.mem_toFinset, List.mem_flatMap]
    exact ⟨kv1, hkv1, hincl x hx2⟩
  refine ⟨?_, hsub, Finset.card_le_card hsub⟩
  intro kv2 hkv2
  rcases main kv2 hkv2 with ⟨kv1, hkv1, hincl⟩
  refine ⟨kv1, hkv1, hincl, ?_⟩
  have hsub' : kv2.2.toFinset ⊆ kv1.2.toFinset := by
    intro x hx
    rw [List.mem_toFinset] at hx ⊢
    exact hincl x hx
  rw [← List.toFinset_card_of_nodup (hwf2.memNodup kv2 hkv2),
    ← List.toFinset_card_of_nodup (hwf1.memNodup kv1 hkv1)]
  exact Finset.card_le_card hsub'

/-- Witness for C6 with thresholds 0 ≤ 1/2 on a two-item input. -/
theorem threshold_antitone_witness :
    (0:ℚ) ≤ 1/2 ∧
      (([((0:ℕ), ["a", "b"])] : Registry).flatMap Prod.snd).toFinset.card ≤
        (([((0:ℕ), ["a", "b"])] : Registry).flatMap Prod.snd).toFinset.card :=
  ⟨by decide,
    (threshold_antitone [("a", [(1:ℚ)]), ("b", [1])] 0 (1/2)
        [(0, ["a", "b"])] [(0, ["a", "b"])]
        (by decide) (by decide) (by decide) (by decide)).2.2⟩

theorem eq_singleton_of_all {α : Type} {l : List α} {a : α} (hnd : l.Nodup)
    (ha : a ∈ l) (hall : ∀ b ∈ l, b = a) : l = [a] := by
  cases l with
  | nil => cases ha
  | cons b l' =>
    have hb : b = a := hall b (List.mem_cons_self _ _)
    subst hb
    have hl' : l' = [] := by
      cases l' with
      | nil => rfl
      | cons c l'' =>
        have hc : c = b := hall c (by simp)
        rw [List.nodup_cons] at hnd
        exact absurd (by rw [← hc]; exact List.mem_cons_self c l'') hnd.1
    rw [hl']

theorem trueEdges_endpoint {items : List (String × List ℚ)} {t : ℚ}
    {ps : List (ℕ × ℕ)} {m y : String}
    (hps : ∀ ij ∈ ps, ij.1 < ij.2 ∧ ij.2 < items.length)
    (h : adjE (trueEdges items t ps) m y) :
    ∃ vm, (m, vm) ∈ items := by
  rcases h with h | h <;> rcases trueEdges_mem.mp h with ⟨ij, hij, _, heq⟩
  · rcases hps ij hij with ⟨h1, h2⟩
    have hm : m = nameAt items ij.1 := congrArg Prod.fst heq
    exact ⟨vecAt items ij.1, by rw [hm]; exact nameAt_mem (lt_trans h1 h2)⟩
  · rcases hps ij hij with ⟨h1, h2⟩
    have hm : m = nameAt items ij.2 := congrArg Prod.snd heq
    exact ⟨vecAt items ij.2, by rw [hm]; exact nameAt_mem h2⟩

/-- C8: thresholds outside [-1, 1] are accepted without validation, and
since the cosine similarity of any pair is within [-1, 1]: a threshold
above 1 yields no clusters at all, while a threshold at or below -1 on at
least two (non-degenerate, unique-identifier) items yields exactly one
cluster holding every identifier. -/
theorem thresholds_outside_range :
    (∀ (items : List (String × List ℚ)) (t : ℚ) (cs : Registry), 1 < t →
      compare_embeddings items t = .ok cs → cs = []) ∧
    (∀ (items : List (String × List ℚ)) (t : ℚ) (cs : Registry),
      t ≤ -1 → (items.map Prod.fst).Nodup → 2 ≤ items.length →
      (∀ p ∈ items, sqNorm p.2 ≠ 0) →
      compare_embeddings items t = .ok cs →
      ∃ k S, cs = [(k, S)] ∧ ∀ x, (x ∈ S ↔ ∃ v, (x, v) ∈ items)) := by
  constructor
  · intro items t cs ht hok
    unfold compare_embeddings at hok
    cases hrun : runPairs items t (pairList items.length) ([], 0) with
    | error e =>
      rw [hrun] at hok
      cases hok
    | ok st =>
      rw [hrun] at hok
      have hcs : st.1 = cs := by
        have hok' : (Except.ok st.1 : Except Err Registry) = Except.ok cs := hok
        simpa using hok'
      have hemp : trueEdges items t (pairList items.length) = [] := by
        unfold trueEdges
        rw [List.filter_eq_nil_iff.mpr ?_]
        · rfl
        · intro ij _
          rw [simGE_false_of_one_lt ht]
          simp
      have := runPairs_eq_foldEdges _ _ _ hrun
      rw [hemp] at this
      rw [← hcs, this]
      rfl
  · intro items t cs ht hnd hlen hdeg hok
    obtain ⟨next, hwf⟩ := compare_ok_WF hnd hok
    have hps : ∀ ij ∈ pairList items.length, ij.1 < ij.2 ∧ ij.2 < items.length := by
      intro ij hij
      obtain ⟨i, j⟩ := ij
      exact mem_pairList.mp hij
    have hall : ∀ a b : String, a ≠ b → (∃ va, (a, va) ∈ items) →
        (∃ vb, (b, vb) ∈ items) → simEdge items t a b := by
      rintro a b hab ⟨va, hva⟩ ⟨vb, hvb⟩
      exact ⟨hab, va, vb, hva, hvb, simGE_true_of_le_neg_one ht va vb⟩
    have h0 : (0:ℕ) < items.length := by omega
    have h1 : (1:ℕ) < items.length := by omega
    have h01 : nameAt items 0 ≠ nameAt items 1 := nameAt_ne hnd h0 h1 (by omega)
    have edge01 : simEdge items t (nameAt items 0) (nameAt items 1) :=
      hall _ _ h01 ⟨vecAt items 0, nameAt_mem h0⟩ ⟨vecAt items 1, nameAt_mem h1⟩
    obtain ⟨kv0, hkv0, h0mem⟩ :=
      (hwf.covered (nameAt items 0)).mpr ⟨_, (adjE_trueEdges hnd).mpr edge01⟩
    have hallkv : ∀ kv ∈ cs, kv = kv0 := by
      intro kv hkv
      have hne : kv.2 ≠ [] := by
        intro hc
        have := hwf.big kv hkv
        rw [hc] at this
        simp at this
      obtain ⟨m, hm⟩ := List.exists_mem_of_ne_nil _ hne
      obtain ⟨y, hy⟩ := (hwf.covered m).mp ⟨kv, hkv, hm⟩
      obtain ⟨vm, hvm⟩ := trueEdges_endpoint hps hy
      by_cases hm0 : m = nameAt items 0
      · rw [hm0] at hm
        exact hwf.owner_unique hkv hkv0 hm h0mem
      · have hedge : simEdge items t m (nameAt items 0) :=
          hall _ _ hm0 ⟨vm, hvm⟩ ⟨vecAt items 0, nameAt_mem h0⟩
        have hconn : connE (trueEdges items t (pairList items.length)) m (nameAt items 0) :=
          connE_of_adj ((adjE_trueEdges hnd).mpr hedge)
        rcases (hwf.sameIff m (nameAt items 0) hm0).mpr hconn with ⟨kv', hkv', hm', h0'⟩
        rw [← hwf.owner_unique hkv' hkv hm' hm]
        exact hwf.owner_unique hkv' hkv0 h0' h0mem
    have hcseq : cs = [kv0] :=
      eq_singleton_of_all (hwf.keysNodup.of_map) hkv0 hallkv
    refine ⟨kv0.1, kv0.2, by rw [hcseq], ?_⟩
    intro x
    constructor
    · intro hx
      obtain ⟨y, hy⟩ := (hwf.covered x).mp ⟨kv0, hkv0, hx⟩
      exact trueEdges_endpoint hps hy
    · rintro ⟨v, hv⟩
      by_cases hx0 : x = nameAt items 0
      · rw [hx0]
        exact h0mem
      · have hedge : simEdge items t x (nameAt items 0) :=
          hall _ _ hx0 ⟨v, hv⟩ ⟨vecAt items 0, nameAt_mem h0⟩
        have hconn : connE (trueEdges items t (pairList items.length)) x (nameAt items 0) :=
          connE_of_adj ((adjE_trueEdges hnd).mpr hedge)
        rcases (hwf.sameIff x (nameAt items 0) hx0).mpr hconn with ⟨kv', hkv', hx', h0'⟩
        rw [← hwf.owner_unique hkv' hkv0 h0' h0mem]
        exact hx'

/-- Witness for C8: threshold 2 clusters nothing; threshold -1 on two
opposite unit vectors produces the single all-covering cluster. -/
theorem thresholds_outside_range_witness :
    (([] : Registry) = []) ∧
      ∃ k S, ([((0:ℕ), ["a", "b"])] : Registry) = [(k, S)] ∧
        ∀ x, (x ∈ S ↔ ∃ v, (x, v) ∈ [("a", [(1:ℚ)]), ("b", [-1])]) :=
  ⟨thresholds_outside_range.1 [("a", [(1:ℚ)]), ("b", [1])] 2 []
      (by norm_num) (by decide),
    thresholds_outside_range.2 [("a", [(1:ℚ)]), ("b", [-1])] (-1)
      [(0, ["a", "b"])] (by norm_num) (by decide) (by decide) (by decide) (by decide)⟩

/-- Soundness of the exact rational comparison: for non-degenerate vectors
`simGE v w t` decides precisely the real statement
`t ≤ dot v w / (‖v‖·‖w‖)`, stated multiplied out by the positive
denominator. -/
theorem simGE_correct (v w : List ℚ) (t : ℚ) (hv : sqNorm v ≠ 0) (hw : sqNorm w ≠ 0) :
    simGE v w t = true ↔
      (t : ℝ) * (Real.sqrt ((sqNorm v : ℚ) : ℝ) * Real.sqrt ((sqNorm w : ℚ) : ℝ)) ≤
        ((dot v w : ℚ) : ℝ) := by
  have hvq : (0:ℚ) < sqNorm v := (sqNorm_nonneg v).lt_of_ne (Ne.symm hv)
  have hwq : (0:ℚ) < sqNorm w := (sqNorm_nonneg w).lt_of_ne (Ne.symm hw)
  have hX : (0:ℝ) < ((sqNorm v : ℚ) : ℝ) := by exact_mod_cast hvq
  have hY : (0:ℝ) < ((sqNorm w : ℚ) : ℝ) := by exact_mod_cast hwq
  have hsq : Real.sqrt ((sqNorm v : ℚ) : ℝ) * Real.sqrt ((sqNorm w : ℚ) : ℝ) =
      Real.sqrt (((sqNorm v : ℚ) : ℝ) * ((sqNorm w : ℚ) : ℝ)) :=
    (Real.sqrt_mul hX.le _).symm
  have hNpos : (0:ℝ) < ((sqNorm v : ℚ) : ℝ) * ((sqNorm w : ℚ) : ℝ) := mul_pos hX hY
  unfold simGE
  rw [if_neg (by push_neg; exact ⟨hv, hw⟩)]
  rw [hsq]
  by_cases ht : t ≤ 0
  · have htR : ((t:ℚ):ℝ) ≤ 0 := by exact_mod_cast ht
    rw [if_pos ht, Bool.or_eq_true, decide_eq_true_eq, decide_eq_true_eq]
    have habs : Real.sqrt (((t:ℚ):ℝ) ^ 2 * (((sqNorm v : ℚ) : ℝ) * ((sqNorm w : ℚ) : ℝ))) =
        -((t:ℚ):ℝ) * Real.sqrt (((sqNorm v : ℚ) : ℝ) * ((sqNorm w : ℚ) : ℝ)) := by
      rw [Real.sqrt_mul (sq_nonneg _), Real.sqrt_sq_eq_abs, abs_of_nonpos htR]
    constructor
    · rintro (hd | hdd)
      · have h2 : (0:ℝ) ≤ ((dot v w : ℚ) : ℝ) := by exact_mod_cast hd
        have h1 : ((t:ℚ):ℝ) * Real.sqrt (((sqNorm v : ℚ) : ℝ) * ((sqNorm w : ℚ) : ℝ)) ≤ 0 :=
          mul_nonpos_of_nonpos_of_nonneg htR (Real.sqrt_nonneg _)
        linarith
    -- d may be negative: compare squares
      · by_cases hd : 0 ≤ dot v w
        · have h2 : (0:ℝ) ≤ ((dot v w : ℚ) : ℝ) := by exact_mod_cast hd
          have h1 : ((t:ℚ):ℝ) * Real.sqrt (((sqNorm v : ℚ) : ℝ) * ((sqNorm w : ℚ) : ℝ)) ≤ 0 :=
            mul_nonpos_of_nonpos_of_nonneg htR (Real.sqrt_nonneg _)
          linarith
        · push_neg at hd
          have hdR : ((dot v w : ℚ) : ℝ) < 0 := by exact_mod_cast hd
          have hdd' : (((dot v w : ℚ) : ℝ)) ^ 2 ≤
              ((t:ℚ):ℝ) ^ 2 * (((sqNorm v : ℚ) : ℝ) * ((sqNorm w : ℚ) : ℝ)) := by
            exact_mod_cast hdd
          have h3 : -((dot v w : ℚ) : ℝ) ≤
              Real.sqrt (((t:ℚ):ℝ) ^ 2 * (((sqNorm v : ℚ) : ℝ) * ((sqNorm w : ℚ) : ℝ))) :=
            (Real.le_sqrt (by linarith) (by positivity)).mpr (by rw [neg_sq]; exact hdd')
          rw [habs] at h3
          linarith
    · intro hle
      by_cases hd : 0 ≤ dot v w
      · exact Or.inl hd
      · push_neg at hd
        right
        have hdR : ((dot v w : ℚ) : ℝ) < 0 := by exact_mod_cast hd
        have h3 : -((dot v w : ℚ) : ℝ) ≤
            -((t:ℚ):ℝ) * Real.sqrt (((sqNorm v : ℚ) : ℝ) * ((sqNorm w : ℚ) : ℝ)) := by
          linarith
        rw [← habs] at h3
        have h4 := (Real.le_sqrt (by linarith) (by positivity)).mp h3
        rw [neg_sq] at h4
        exact_mod_cast h4
  · push_neg at ht
    have htR : (0:ℝ) < ((t:ℚ):ℝ) := by exact_mod_cast ht
    rw [if_neg (not_le.mpr ht), Bool.and_eq_true, decide_eq_true_eq, decide_eq_true_eq]
    have habs : Real.sqrt (((t:ℚ):ℝ) ^ 2 * (((sqNorm v : ℚ) : ℝ) * ((sqNorm w : ℚ) : ℝ))) =
        ((t:ℚ):ℝ) * Real.sqrt (((sqNorm v : ℚ) : ℝ) * ((sqNorm w : ℚ) : ℝ)) := by
      rw [Real.sqrt_mul (sq_nonneg _), Real.sqrt_sq_eq_abs, abs_of_pos htR]
    rw [← habs, Real.sqrt_le_iff]
    constructor
    · rintro ⟨hd, hdd⟩
      refine ⟨by exact_mod_cast hd, ?_⟩
      exact_mod_cast hdd
    · rintro ⟨hd, hdd⟩
      refine ⟨by exact_mod_cast hd, ?_⟩
      exact_mod_cast hdd

end VoiceVerification
